import Mathlib

/-!
# Verification of the Roo-Code code-indexing core

Shallow embedding of the code-indexing subsystem: the `CodeIndexStateManager`
(`src/services/code-index/state-manager.ts`), the `CodeIndexOrchestrator`
(`startIndexing` and its guard), and the `DirectoryScanner`
(`scanDirectory` / `processBatch`).  Definitions are direct ports of the
TypeScript source; theorems settle the specification claims about them.
-/

namespace CodeIndex

/-- The four indexing states of `IndexingState` in `state-manager.ts`. -/
inductive IndexingState where
  | Standby
  | Indexing
  | Indexed
  | Error
deriving DecidableEq, Repr

/-- The mutable fields of `CodeIndexStateManager`. -/
structure StateManager where
  systemStatus : IndexingState
  statusMessage : String
  processedItems : Nat
  totalItems : Nat
  currentItemUnit : String
  currentApiKey : Nat
  totalApiKeys : Nat
deriving DecidableEq, Repr

/-- The field initializers of `CodeIndexStateManager`. -/
def StateManager.initial : StateManager :=
  { systemStatus := .Standby
    statusMessage := ""
    processedItems := 0
    totalItems := 0
    currentItemUnit := "blocks"
    currentApiKey := 0
    totalApiKeys := 0 }

/-- Port of `CodeIndexStateManager.setSystemState`.  Returns the updated
manager and whether the progress event was fired. -/
def setSystemState (sm : StateManager) (newState : IndexingState) (message : Option String) :
    StateManager × Bool :=
  if newState ≠ sm.systemStatus ∨ (message.isSome ∧ message ≠ some sm.statusMessage) then
    let msg1 := message.getD sm.statusMessage
    if newState ≠ IndexingState.Indexing then
      let msg2 :=
        if newState = IndexingState.Standby ∧ message = none then "Ready."
        else if newState = IndexingState.Indexed ∧ message = none then "Index up-to-date."
        else if newState = IndexingState.Error ∧ message = none then "An error occurred."
        else msg1
      ({ sm with
          systemStatus := newState
          statusMessage := msg2
          processedItems := 0
          totalItems := 0
          currentItemUnit := "blocks"
          currentApiKey := 0
          totalApiKeys := 0 }, true)
    else
      ({ sm with systemStatus := newState, statusMessage := msg1 }, true)
  else (sm, false)

/-- Message built by `reportBlockIndexingProgress`. -/
def blockProgressMessage (processedItems totalItems : Nat) : String :=
  let unit := if totalItems = 1 then "block" else "blocks"
  "Indexed " ++ Nat.repr processedItems ++ " / " ++ Nat.repr totalItems ++ " " ++ unit ++ " found"

/-- Port of `CodeIndexStateManager.reportBlockIndexingProgress`. -/
def reportBlockIndexingProgress (sm : StateManager) (processedItems totalItems : Nat) :
    StateManager × Bool :=
  let progressChanged := processedItems ≠ sm.processedItems ∨ totalItems ≠ sm.totalItems
  let newMessage := blockProgressMessage processedItems totalItems
  if progressChanged ∨ sm.systemStatus ≠ IndexingState.Indexing ∨ newMessage ≠ sm.statusMessage then
    ({ sm with
        processedItems := processedItems
        totalItems := totalItems
        currentItemUnit := "blocks"
        systemStatus := IndexingState.Indexing
        statusMessage := newMessage }, true)
  else (sm, false)

/-- Message built by `reportFileQueueProgress`; the `currentFileBasename || "..."`
fallback treats the empty string as absent, as JavaScript truthiness does. -/
def fileQueueMessage (sm : StateManager) (processedFiles totalFiles : Nat)
    (currentFileBasename : Option String) : String :=
  let unit := if totalFiles = 1 then "file" else "files"
  if totalFiles > 0 ∧ processedFiles = 0 then
    "Found " ++ Nat.repr totalFiles ++ " " ++ unit ++ " to process."
  else if totalFiles > 0 ∧ processedFiles < totalFiles then
    let name :=
      match currentFileBasename with
      | some s => if s = "" then "..." else s
      | none => "..."
    "Processing " ++ Nat.repr processedFiles ++ " / " ++ Nat.repr totalFiles ++ " " ++ unit ++
      ". Current: " ++ name
  else
    sm.statusMessage

/-- Port of `CodeIndexStateManager.reportFileQueueProgress`. -/
def reportFileQueueProgress (sm : StateManager) (processedFiles totalFiles : Nat)
    (currentFileBasename : Option String) : StateManager × Bool :=
  let progressChanged := processedFiles ≠ sm.processedItems ∨ totalFiles ≠ sm.totalItems
  let newMessage := fileQueueMessage sm processedFiles totalFiles currentFileBasename
  if progressChanged ∨ sm.systemStatus ≠ IndexingState.Indexing ∨ newMessage ≠ sm.statusMessage then
    ({ sm with
        processedItems := processedFiles
        totalItems := totalFiles
        currentItemUnit := "files"
        systemStatus := IndexingState.Indexing
        statusMessage := newMessage }, true)
  else (sm, false)

/-- Port of `CodeIndexStateManager.reportApiKeyUsage`. -/
def reportApiKeyUsage (sm : StateManager) (current total : Nat) : StateManager × Bool :=
  if sm.currentApiKey ≠ current ∨ sm.totalApiKeys ≠ total then
    ({ sm with currentApiKey := current, totalApiKeys := total }, true)
  else (sm, false)

/-- One call to a public mutating operation of `CodeIndexStateManager`. -/
inductive SMOp where
  | setState (s : IndexingState) (m : Option String)
  | blockProgress (p t : Nat)
  | fileProgress (p t : Nat) (f : Option String)
  | apiKeyUsage (c t : Nat)
deriving DecidableEq, Repr

/-- Apply one operation, returning the updated manager and whether it fired. -/
def applyOp (sm : StateManager) : SMOp → StateManager × Bool
  | .setState s m => setSystemState sm s m
  | .blockProgress p t => reportBlockIndexingProgress sm p t
  | .fileProgress p t f => reportFileQueueProgress sm p t f
  | .apiKeyUsage c t => reportApiKeyUsage sm c t

/-- Run a sequence of operations from a given manager state. -/
def runOps (sm : StateManager) : List SMOp → StateManager
  | [] => sm
  | op :: rest => runOps (applyOp sm op).1 rest

/-! ## Directory scanner model (`DirectoryScanner` in the scanner source) -/

/-- A parsed code block (`CodeBlock` in the interfaces). -/
structure CodeBlock where
  file_path : String
  content : String
  start_line : Nat
  end_line : Nat
  segmentHash : String
deriving DecidableEq, Repr

/-- File metadata accumulated for batch processing
(`{filePath, fileHash, isNew}` entries of `allFileInfosToProcess`). -/
structure FileInfo where
  filePath : String
  fileHash : String
  isNew : Bool
deriving DecidableEq, Repr

/-- The hash cache of `CacheManager`: an association list path ↦ hash. -/
abbrev Cache := List (String × String)

/-- `cacheManager.getHash(path)`. -/
def getHash (c : Cache) (p : String) : Option String :=
  (c.find? (fun kv => kv.1 == p)).map (fun kv => kv.2)

/-- `cacheManager.updateHash(path, hash)`: replace an existing entry or append. -/
def updateHash (c : Cache) (p h : String) : Cache :=
  if c.any (fun kv => kv.1 == p) then
    c.map (fun kv => if kv.1 == p then (p, h) else kv)
  else c ++ [(p, h)]

/-- `cacheManager.deleteHash(path)`. -/
def deleteHash (c : Cache) (p : String) : Cache :=
  c.filter (fun kv => kv.1 != p)

/-- Observable calls and effects emitted by the scanner, in program order. -/
inductive ScanEvent where
  | fileProgress (n total : Nat) (path : String)
  | parseCall (path : String)
  | blockProcessingStart (total : Nat)
  | deleteStaleCall (paths : List String)
  | embedCall (texts : List String)
  | upsertCall (count : Nat)
  | upsertOk
  | blocksIndexed (n : Nat)
  | cacheUpdate (path hash : String)
  | sleep (ms : Nat)
  | batchError
  | deletePointsCall (path : String)
  | cacheDelete (path : String)
  | deleteError (path : String)
deriving DecidableEq, Repr

/-- Outcomes of the three fallible collaborator calls of one `processBatch`
attempt: `deletePointsByMultipleFilePaths`, `createEmbeddings`, `upsertPoints`. -/
structure AttemptEnv where
  deleteOk : Bool
  embedOk : Bool
  upsertOk : Bool
deriving DecidableEq, Repr

/-- The `uniqueFilePaths` of the deletion step of `processBatch`: paths of the
non-new files of the batch, deduplicated. -/
def attemptDeletePaths (batchFileInfos : List FileInfo) : List String :=
  ((batchFileInfos.filter (fun i => !i.isNew)).map (fun i => i.filePath)).eraseDups

/-- Events emitted by one attempt of `processBatch`, in the order the source
statements execute: stale-point deletion (when there are modified files), then
embedding, then upsert, then — only after the upsert returned — the
`onBlocksIndexed` callback and the per-file cache updates. -/
def attemptEvents (batchBlocks : List CodeBlock) (batchTexts : List String)
    (batchFileInfos : List FileInfo) (a : AttemptEnv) : List ScanEvent :=
  let delPaths := attemptDeletePaths batchFileInfos
  if delPaths.isEmpty ∨ a.deleteOk then
    let delEvents := if delPaths.isEmpty then ([] : List ScanEvent)
      else [ScanEvent.deleteStaleCall delPaths]
    if a.embedOk then
      if a.upsertOk then
        delEvents ++ [ScanEvent.embedCall batchTexts, ScanEvent.upsertCall batchBlocks.length,
          ScanEvent.upsertOk, ScanEvent.blocksIndexed batchBlocks.length] ++
          batchFileInfos.map (fun i => ScanEvent.cacheUpdate i.filePath i.fileHash)
      else
        delEvents ++ [ScanEvent.embedCall batchTexts, ScanEvent.upsertCall batchBlocks.length]
    else
      delEvents ++ [ScanEvent.embedCall batchTexts]
  else
    [ScanEvent.deleteStaleCall delPaths]

/-- Whether one attempt of `processBatch` reaches the success path. -/
def attemptSucceeds (batchFileInfos : List FileInfo) (a : AttemptEnv) : Bool :=
  ((attemptDeletePaths batchFileInfos).isEmpty || a.deleteOk) && a.embedOk && a.upsertOk

/-- The cache updates performed after a successful upsert: one
`updateHash` per file info of the batch, in order. -/
def updateHashes (c : Cache) (infos : List FileInfo) : Cache :=
  infos.foldl (fun acc i => updateHash acc i.filePath i.fileHash) c

/-- Result of `processBatch`: the returned count, the cache afterwards, the
emitted events and the number of attempts made. -/
structure BatchResult where
  indexed : Nat
  cache : Cache
  events : List ScanEvent
  attemptsMade : Nat
deriving Repr

/-- The retry loop of `processBatch`.  `fuel` is the number of attempts still
allowed, `made` the number already made; the backoff before retry `made+2` is
`initialDelay * 2 ^ made`, and after the last failed attempt the failure is
reported once via `onError` (`batchError`). -/
def processBatchGo (initialDelay : Nat) (attemptEnv : Nat → AttemptEnv)
    (batchBlocks : List CodeBlock) (batchTexts : List String)
    (batchFileInfos : List FileInfo) :
    Nat → Nat → Cache → List ScanEvent → BatchResult
  | 0, made, c, evs =>
      { indexed := 0
        cache := c
        events := evs ++ (if made > 0 then [ScanEvent.batchError] else [])
        attemptsMade := made }
  | fuel + 1, made, c, evs =>
      let a := attemptEnv made
      let evs1 := evs ++ attemptEvents batchBlocks batchTexts batchFileInfos a
      if attemptSucceeds batchFileInfos a then
        { indexed := batchBlocks.length
          cache := updateHashes c batchFileInfos
          events := evs1
          attemptsMade := made + 1 }
      else
        let evs2 := if fuel = 0 then evs1
          else evs1 ++ [ScanEvent.sleep (initialDelay * 2 ^ made)]
        processBatchGo initialDelay attemptEnv batchBlocks batchTexts batchFileInfos
          fuel (made + 1) c evs2

/-- Port of `DirectoryScanner.processBatch`. -/
def processBatch (maxRetries initialDelay : Nat) (attemptEnv : Nat → AttemptEnv)
    (batchBlocks : List CodeBlock) (batchTexts : List String)
    (batchFileInfos : List FileInfo) (c : Cache) : BatchResult :=
  if batchBlocks.isEmpty then
    { indexed := 0, cache := c, events := [], attemptsMade := 0 }
  else
    processBatchGo initialDelay attemptEnv batchBlocks batchTexts batchFileInfos
      maxRetries 0 c []

/-! ## `scanDirectory` model -/

/-- One entry of `supportedPaths` together with the data the scanner reads
for it: its size (from `stat`) and its content (from `readFile`). -/
structure FileEntry where
  path : String
  size : Nat
  content : String
deriving DecidableEq, Repr

/-- Scan parameters and collaborator behaviour.  `maxFileSize`,
`batchThreshold`, `maxRetries` and `initialDelay` stand for the imported
constants `MAX_FILE_SIZE_BYTES`, `BATCH_SEGMENT_THRESHOLD`,
`MAX_BATCH_RETRIES` and `INITIAL_RETRY_DELAY_MS` (their numeric values live in
a constants module outside the reviewed sources, so they are parameters here).
`hashFn` stands for SHA-256 of the content, `parseFn` for
`codeParser.parseFile`, `batchEnv i k` for the collaborator outcomes of
attempt `k` of batch `i`, and `deletePointsOk p` for whether
`deletePointsByFilePath p` succeeds in the deletion-reconciliation pass. -/
structure ScanEnv where
  maxFileSize : Nat
  batchThreshold : Nat
  maxRetries : Nat
  initialDelay : Nat
  hashFn : String → String
  parseFn : String → String → List CodeBlock
  batchEnv : Nat → Nat → AttemptEnv
  deletePointsOk : String → Bool

/-- Mutable state of the per-file phase of `scanDirectory`. -/
structure ScanState where
  processedFiles : List String
  processedCount : Nat
  skippedCount : Nat
  cache : Cache
  blocks : List CodeBlock
  fileInfos : List FileInfo
  events : List ScanEvent
  fileNumber : Nat
deriving Repr

/-- Initial per-file-phase state over a given cache. -/
def initialScanState (c : Cache) : ScanState :=
  { processedFiles := []
    processedCount := 0
    skippedCount := 0
    cache := c
    blocks := []
    fileInfos := []
    events := []
    fileNumber := 0 }

/-- Port of the per-file closure of `scanDirectory`: report progress, skip
oversized files, read and hash, skip unchanged files, parse, and either update
the cache at once (zero blocks) or append the blocks and the file info to the
shared accumulators. -/
def processFile (env : ScanEnv) (total : Nat) (s : ScanState) (f : FileEntry) : ScanState :=
  let s := { s with
    fileNumber := s.fileNumber + 1
    events := s.events ++ [ScanEvent.fileProgress (s.fileNumber + 1) total f.path] }
  if f.size > env.maxFileSize then
    { s with skippedCount := s.skippedCount + 1 }
  else
    let currentFileHash := env.hashFn f.content
    let s := { s with processedFiles := s.processedFiles ++ [f.path] }
    let cachedFileHash := getHash s.cache f.path
    if cachedFileHash = some currentFileHash then
      { s with skippedCount := s.skippedCount + 1 }
    else
      let blocks := env.parseFn f.path f.content
      let s := { s with events := s.events ++ [ScanEvent.parseCall f.path] }
      if blocks.isEmpty then
        { s with
            cache := updateHash s.cache f.path currentFileHash
            events := s.events ++ [ScanEvent.cacheUpdate f.path currentFileHash]
            processedCount := s.processedCount + 1 }
      else
        { s with
            blocks := s.blocks ++ blocks
            fileInfos := s.fileInfos ++
              [{ filePath := f.path, fileHash := currentFileHash
                 isNew := cachedFileHash.isNone }]
            processedCount := s.processedCount + 1 }

/-- Fuel-driven worker for `chunks`; the fuel starts at the list length, and
every step with a positive chunk size consumes at least one element, so the
fuel never runs out on the calls `chunks` makes. -/
def chunksGo {α : Type} (T : Nat) : Nat → List α → List (List α)
  | _, [] => []
  | 0, _ :: _ => []
  | fuel + 1, x :: xs => ((x :: xs).take T) :: chunksGo T fuel ((x :: xs).drop T)

/-- Consecutive slices of size `T`, mirroring the
`for (i = 0; i < n; i += T) slice(i, i + T)` batch-partitioning loop. -/
def chunks {α : Type} (T : Nat) (l : List α) : List (List α) :=
  if T = 0 then [] else chunksGo T l.length l

/-- Whitespace test used by `trimString`. -/
def isWhitespaceChar (c : Char) : Bool :=
  c = ' ' ∨ c = '\t' ∨ c = '\n' ∨ c = '\r'

/-- Whitespace trimming of `content.trim()`, over the character list. -/
def trimString (s : String) : String :=
  (((s.toList.dropWhile isWhitespaceChar).reverse.dropWhile isWhitespaceChar).reverse).asString

/-- `batchTexts`: trimmed block contents, dropping strings that are empty
after trimming (`filter(Boolean)`). -/
def batchTextsOf (batchBlocks : List CodeBlock) : List String :=
  (batchBlocks.map (fun b => trimString b.content)).filter (fun s => s ≠ "")

/-- `batchFileInfos`: all accumulated file infos whose path occurs among the
blocks of the batch. -/
def batchInfosOf (allFileInfos : List FileInfo) (batchBlocks : List CodeBlock) :
    List FileInfo :=
  allFileInfos.filter (fun info => batchBlocks.any (fun b => b.file_path == info.filePath))

/-- Process the batches in order (the effect of awaiting every
`processBatch` promise), threading the cache and summing the returned
counts. -/
def runBatches (env : ScanEnv) (allFileInfos : List FileInfo) :
    List (List CodeBlock) → Nat → Cache → Nat × Cache × List ScanEvent
  | [], _, c => (0, c, [])
  | b :: rest, i, c =>
      let r := processBatch env.maxRetries env.initialDelay (env.batchEnv i) b
        (batchTextsOf b) (batchInfosOf allFileInfos b) c
      let rec2 := runBatches env allFileInfos rest (i + 1) r.cache
      (r.indexed + rec2.1, rec2.2.1, r.events ++ rec2.2.2)

/-- The deleted-file reconciliation pass: for every path of the cache
snapshot not in `processedFiles`, call `deletePointsByFilePath` once and, when
it succeeds, delete the cache entry; a failure is reported via `onError` and
leaves the entry in place. -/
def deletionPass (env : ScanEnv) (processedFiles : List String) :
    List (String × String) → Cache → Cache × List ScanEvent
  | [], c => (c, [])
  | (p, _) :: rest, c =>
      if processedFiles.contains p then
        deletionPass env processedFiles rest c
      else if env.deletePointsOk p then
        let r := deletionPass env processedFiles rest (deleteHash c p)
        (r.1, ScanEvent.deletePointsCall p :: ScanEvent.cacheDelete p :: r.2)
      else
        let r := deletionPass env processedFiles rest c
        (r.1, ScanEvent.deletePointsCall p :: ScanEvent.deleteError p :: r.2)

/-- Result of `scanDirectory`: the returned stats, plus the final cache, the
event trace, and (for specification) the cache as it stands when the deletion
pass snapshots it, the batch partition, the set of files read, and the
accumulated blocks and file infos. -/
structure ScanResult where
  processed : Nat
  skipped : Nat
  totalBlocksIndexed : Nat
  cache : Cache
  cacheAfterBatches : Cache
  events : List ScanEvent
  batches : List (List CodeBlock)
  processedFiles : List String
  allBlocks : List CodeBlock
  fileInfos : List FileInfo
deriving Repr

/-- The per-file phase of `scanDirectory`: fold `processFile` over the
supported paths. -/
def scanFold (env : ScanEnv) (files : List FileEntry) (cache : Cache) : ScanState :=
  files.foldl (processFile env files.length) (initialScanState cache)

/-- The batch partition built from the accumulated blocks. -/
def scanBatches (env : ScanEnv) (files : List FileEntry) (cache : Cache) :
    List (List CodeBlock) :=
  chunks env.batchThreshold (scanFold env files cache).blocks

/-- The batch-processing phase over the partition. -/
def scanBatchPhase (env : ScanEnv) (files : List FileEntry) (cache : Cache) :
    Nat × Cache × List ScanEvent :=
  runBatches env (scanFold env files cache).fileInfos (scanBatches env files cache) 0
    (scanFold env files cache).cache

/-- The deleted-file reconciliation pass, over the cache snapshot taken after
the batches complete. -/
def scanDeletions (env : ScanEnv) (files : List FileEntry) (cache : Cache) :
    Cache × List ScanEvent :=
  deletionPass env (scanFold env files cache).processedFiles
    (scanBatchPhase env files cache).2.1 (scanBatchPhase env files cache).2.1

/-- Port of `DirectoryScanner.scanDirectory` from the filtered
`supportedPaths` onwards: per-file phase, block batching, batch processing,
and deleted-file reconciliation. -/
def scanDirectory (env : ScanEnv) (files : List FileEntry) (cache : Cache) : ScanResult :=
  { processed := (scanFold env files cache).processedCount
    skipped := (scanFold env files cache).skippedCount
    totalBlocksIndexed := (scanBatchPhase env files cache).1
    cache := (scanDeletions env files cache).1
    cacheAfterBatches := (scanBatchPhase env files cache).2.1
    events := (scanFold env files cache).events ++
      [ScanEvent.blockProcessingStart (scanFold env files cache).blocks.length] ++
      (scanBatchPhase env files cache).2.2 ++ (scanDeletions env files cache).2
    batches := scanBatches env files cache
    processedFiles := (scanFold env files cache).processedFiles
    allBlocks := (scanFold env files cache).blocks
    fileInfos := (scanFold env files cache).fileInfos }

/-! ## Orchestrator model (`CodeIndexOrchestrator.startIndexing`, first variant) -/

/-- `path.basename`: the characters after the last `/`. -/
def basename (s : String) : String :=
  (s.toList.foldl (fun acc c => if c = '/' then [] else acc ++ [c]) []).asString

/-- Collaborator behaviour seen by one `startIndexing` run:
whether the feature is configured, whether `vectorStore.initialize` succeeds
and whether it reports a newly created collection, whether the file watcher
initializes, the watcher queue size afterwards, and the scanner's world. -/
structure OrchEnv where
  configured : Bool
  vsInitOk : Bool
  collectionCreated : Bool
  watcherInitOk : Bool
  queueSize : Nat
  scanEnv : ScanEnv
  files : List FileEntry

/-- The local variables of `startIndexing` updated by the scan callbacks
(`processedFiles`, `cumulativeBlocksIndexed`, `totalBlocksFound`,
`batchErrors` — the model keeps only their count), together with the state
manager the callbacks report to. -/
structure OrchAcc where
  sm : StateManager
  processedFiles : Nat
  cumulative : Nat
  totalBlocksFound : Nat
  batchErrors : Nat

/-- Effect of one scanner callback on the orchestrator's local variables and
the state manager: `onFileProgress` (`handleFileProgress`),
`onBlockProcessingStart` (`handleBlockProcessingStart`), `onBlocksIndexed`
(`handleBlocksIndexed`) and the `onError` collector. -/
def orchHandleEvent (acc : OrchAcc) : ScanEvent → OrchAcc
  | .fileProgress n total p =>
      { acc with
          processedFiles := n
          sm := (reportFileQueueProgress acc.sm n total
            (if p = "" then none else some (basename p))).1 }
  | .blockProcessingStart t =>
      { acc with
          totalBlocksFound := t
          sm := (reportBlockIndexingProgress acc.sm 0 t).1 }
  | .blocksIndexed n =>
      let cumulative := acc.cumulative + n
      if acc.totalBlocksFound > 0 then
        { acc with
            cumulative := cumulative
            sm := (reportBlockIndexingProgress acc.sm cumulative acc.totalBlocksFound).1 }
      else { acc with cumulative := cumulative }
  | .batchError => { acc with batchErrors := acc.batchErrors + 1 }
  | .deleteError _ => { acc with batchErrors := acc.batchErrors + 1 }
  | _ => acc

/-- Outcome of a `startIndexing` call: final state manager, `_isProcessing`,
hash cache, whether the run was accepted (got past the guard), whether
`vectorStore.initialize` was called, whether a scan was started, and whether
the run ended in the catch handler. -/
structure StartResult where
  sm : StateManager
  isProcessing : Bool
  cache : Cache
  accepted : Bool
  didInitVS : Bool
  didScan : Bool
  threw : Bool
deriving Repr

/-- The catch handler of `startIndexing` (first variant, non-cancellation
path): `forceStopAndClear` — `stopWatcher` settles to Standby only outside
Error/Indexing, the vector collection and the cache file are cleared, and a
Standby "cleared" state is set unless Error was already latched — followed by
`setSystemState(Error, "Failed during initial scan: …")`. -/
def startIndexingCatch (sm : StateManager) (message : String) : StateManager × Cache :=
  let sm1 :=
    if sm.systemStatus ≠ IndexingState.Error ∧ sm.systemStatus ≠ IndexingState.Indexing then
      (setSystemState sm .Standby (some "File watcher stopped.")).1
    else sm
  let sm2 :=
    if sm1.systemStatus ≠ IndexingState.Error then
      (setSystemState sm1 .Standby (some "Index data cleared successfully.")).1
    else sm1
  ((setSystemState sm2 .Error (some ("Failed during initial scan: " ++ message))).1, [])

/-- Port of `CodeIndexOrchestrator.startIndexing` (first variant).  The scan's
callbacks are replayed from the scan's event trace in program order; after the
scan, `totalBlocksFound` is overwritten with `stats.totalBlocksIndexed`
exactly as the source does, the two final block-progress reports are issued,
the integrity check runs, and the watcher is started. -/
def startIndexing (env : OrchEnv) (sm0 : StateManager) (isProcessing0 : Bool)
    (cache0 : Cache) : StartResult :=
  if !env.configured then
    { sm := (setSystemState sm0 .Standby
        (some "Missing configuration. Save your settings to start indexing.")).1
      isProcessing := isProcessing0, cache := cache0, accepted := false
      didInitVS := false, didScan := false, threw := false }
  else if isProcessing0 ∨
      (sm0.systemStatus ≠ IndexingState.Standby ∧ sm0.systemStatus ≠ IndexingState.Error ∧
        sm0.systemStatus ≠ IndexingState.Indexed) then
    { sm := sm0, isProcessing := isProcessing0, cache := cache0, accepted := false
      didInitVS := false, didScan := false, threw := false }
  else
    let sm1 := (setSystemState sm0 .Indexing (some "Initializing services...")).1
    if !env.vsInitOk then
      let r := startIndexingCatch sm1 "vector store initialization failed"
      { sm := r.1, isProcessing := false, cache := r.2, accepted := true
        didInitVS := true, didScan := false, threw := true }
    else
      let cache1 := if env.collectionCreated then [] else cache0
      let sm2 := (setSystemState sm1 .Indexing
        (some "Services ready. Starting workspace scan...")).1
      let scan := scanDirectory env.scanEnv env.files cache1
      let acc := scan.events.foldl orchHandleEvent
        { sm := sm2, processedFiles := 0, cumulative := 0, totalBlocksFound := 0
          batchErrors := 0 }
      let totalBlocksFound := scan.totalBlocksIndexed
      let sm3 := (reportBlockIndexingProgress acc.sm 0 totalBlocksFound).1
      let sm4 := (reportBlockIndexingProgress sm3 acc.cumulative totalBlocksFound).1
      if acc.processedFiles > 0 ∧ acc.cumulative = 0 ∧ totalBlocksFound > 0 then
        let r := startIndexingCatch sm4
          "Indexing failed: No code blocks were indexed. This often means the embedder is not configured correctly or API keys are invalid."
        { sm := r.1, isProcessing := false, cache := r.2, accepted := true
          didInitVS := true, didScan := true, threw := true }
      else
        let sm5 := (setSystemState sm4 .Indexing (some "Initializing file watcher...")).1
        if !env.watcherInitOk then
          let r := startIndexingCatch sm5 "watcher initialization failed"
          { sm := r.1, isProcessing := false, cache := r.2, accepted := true
            didInitVS := true, didScan := true, threw := true }
        else
          let sm6 :=
            if sm5.systemStatus ≠ IndexingState.Error then
              if env.queueSize = 0 then
                (setSystemState sm5 .Indexed (some "Index is up-to-date.")).1
              else
                (setSystemState sm5 .Indexing
                  (some "Initial scan complete. Watching for file changes...")).1
            else sm5
          { sm := sm6, isProcessing := false, cache := scan.cache, accepted := true
            didInitVS := true, didScan := true, threw := false }

/-! ## State-manager lemmas -/

/-- `setSystemState` always leaves the requested state as the current one:
either the transition is accepted, or it was rejected precisely because the
state already was the requested one. -/
theorem setSystemState_fst_systemStatus (sm : StateManager) (s : IndexingState)
    (m : Option String) : (setSystemState sm s m).1.systemStatus = s := by
  unfold setSystemState
  split
  · split <;> rfl
  · rename_i h
    push_neg at h
    exact h.1.symm

/-- After `setSystemState` with an explicit message, the stored message is
that message (accepted transitions store it; rejected ones already had it). -/
theorem setSystemState_fst_message_some (sm : StateManager) (s : IndexingState) (x : String) :
    (setSystemState sm s (some x)).1.statusMessage = x := by
  unfold setSystemState
  split
  · split <;> simp
  · rename_i h
    push_neg at h
    have hx : some x = some sm.statusMessage := h.2 (by simp)
    simp only [Option.some.injEq] at hx
    simp [hx]

/-- The no-op condition of `setSystemState`: same state, and message either
absent or identical, means no event is fired. -/
theorem setSystemState_noop (sm : StateManager) (s : IndexingState) (m : Option String)
    (hs : s = sm.systemStatus) (hm : m = none ∨ m = some sm.statusMessage) :
    (setSystemState sm s m).2 = false := by
  unfold setSystemState
  rw [if_neg]
  push_neg
  refine ⟨hs, fun hsome => ?_⟩
  rcases hm with hm | hm
  · rw [hm] at hsome; simp at hsome
  · exact hm

/-- C8: `setSystemState` fires no progress event when the state equals the
current state and the message is absent or equal to the current message; in
particular the second of two identical calls never fires, and calling
`setSystemState("Indexing", "x")` twice in a row from the initial manager
fires the event exactly once. -/
theorem claim_C8_setSystemState_noop :
    (∀ (sm : StateManager) (s : IndexingState) (m : Option String),
      s = sm.systemStatus → (m = none ∨ m = some sm.statusMessage) →
      (setSystemState sm s m).2 = false) ∧
    (∀ (sm : StateManager) (s : IndexingState) (m : Option String),
      (setSystemState (setSystemState sm s m).1 s m).2 = false) ∧
    ((setSystemState StateManager.initial .Indexing (some "x")).2 = true ∧
      (setSystemState (setSystemState StateManager.initial .Indexing (some "x")).1
        .Indexing (some "x")).2 = false) := by
  refine ⟨fun sm s m hs hm => setSystemState_noop sm s m hs hm, fun sm s m => ?_, ?_, ?_⟩
  · apply setSystemState_noop
    · exact (setSystemState_fst_systemStatus sm s m).symm
    · cases m with
      | none => exact Or.inl rfl
      | some x => exact Or.inr (by rw [setSystemState_fst_message_some])
  · decide
  · decide

/-- C8 witness: concrete no-op instance. -/
theorem claim_C8_witness :
    (setSystemState StateManager.initial .Standby none).2 = false :=
  claim_C8_setSystemState_noop.1 StateManager.initial .Standby none (by decide) (Or.inl rfl)

/-- C9: an accepted transition to a state other than `Indexing` zeroes the
progress counters and the API-key counters, restores the default unit, and
when no explicit message was supplied assigns the canonical default message
of the target state. -/
theorem claim_C9_reset_on_non_indexing (sm : StateManager) (s : IndexingState)
    (m : Option String) (hfired : (setSystemState sm s m).2 = true)
    (hs : s ≠ IndexingState.Indexing) :
    (setSystemState sm s m).1.processedItems = 0 ∧
    (setSystemState sm s m).1.totalItems = 0 ∧
    (setSystemState sm s m).1.currentItemUnit = "blocks" ∧
    (setSystemState sm s m).1.currentApiKey = 0 ∧
    (setSystemState sm s m).1.totalApiKeys = 0 ∧
    (m = none → (setSystemState sm s m).1.statusMessage =
      (if s = IndexingState.Standby then "Ready."
       else if s = IndexingState.Indexed then "Index up-to-date."
       else "An error occurred.")) := by
  unfold setSystemState at hfired ⊢
  split at hfired
  · rename_i hcond
    rw [if_pos hcond]
    split
    · refine ⟨rfl, rfl, rfl, rfl, rfl, fun hm => ?_⟩
      subst hm
      cases s with
      | Standby => simp
      | Indexing => exact absurd rfl hs
      | Indexed => simp
      | Error => simp
    · rename_i hni
      push_neg at hni
      exact absurd hni hs
  · simp at hfired

/-- C9 witness: transition from initial to Error with no message. -/
theorem claim_C9_witness :
    (setSystemState StateManager.initial .Error none).1.processedItems = 0 ∧
    (setSystemState StateManager.initial .Error none).1.totalItems = 0 ∧
    (setSystemState StateManager.initial .Error none).1.currentItemUnit = "blocks" ∧
    (setSystemState StateManager.initial .Error none).1.currentApiKey = 0 ∧
    (setSystemState StateManager.initial .Error none).1.totalApiKeys = 0 ∧
    ((none : Option String) = none →
      (setSystemState StateManager.initial .Error none).1.statusMessage =
      (if IndexingState.Error = IndexingState.Standby then "Ready."
       else if IndexingState.Error = IndexingState.Indexed then "Index up-to-date."
       else "An error occurred.")) :=
  claim_C9_reset_on_non_indexing StateManager.initial .Error none (by decide) (by decide)

/-- The invariant of C10: outside `Indexing`, the progress counters are zero
and the unit is the default. -/
def ProgressInv (sm : StateManager) : Prop :=
  sm.systemStatus ≠ IndexingState.Indexing →
    sm.processedItems = 0 ∧ sm.totalItems = 0 ∧ sm.currentItemUnit = "blocks"

/-- Every state-manager operation preserves `ProgressInv`. -/
theorem applyOp_preserves_progressInv (sm : StateManager) (op : SMOp)
    (h : ProgressInv sm) : ProgressInv ((applyOp sm op).1) := by
  cases op with
  | setState s m =>
      show ProgressInv (setSystemState sm s m).1
      unfold setSystemState
      split
      · split
        · intro _; exact ⟨rfl, rfl, rfl⟩
        · rename_i hni
          push_neg at hni
          intro hx
          exact absurd hni hx
      · exact h
  | blockProgress p t =>
      show ProgressInv (reportBlockIndexingProgress sm p t).1
      unfold reportBlockIndexingProgress
      dsimp only
      split
      · intro hx
        exact absurd rfl hx
      · exact h
  | fileProgress p t f =>
      show ProgressInv (reportFileQueueProgress sm p t f).1
      unfold reportFileQueueProgress
      dsimp only
      split
      · intro hx
        exact absurd rfl hx
      · exact h
  | apiKeyUsage c t =>
      show ProgressInv (reportApiKeyUsage sm c t).1
      unfold reportApiKeyUsage
      split
      · intro hx
        exact h hx
      · exact h

/-- `runOps` preserves `ProgressInv`. -/
theorem runOps_preserves_progressInv (ops : List SMOp) (sm : StateManager)
    (h : ProgressInv sm) : ProgressInv (runOps sm ops) := by
  induction ops generalizing sm with
  | nil => exact h
  | cons op rest ih =>
      exact ih (applyOp sm op).1 (applyOp_preserves_progressInv sm op h)

/-- C10: after any sequence of operations from a fresh manager, whenever the
status is not `Indexing` the progress counters are zero and the unit is the
default "blocks"; the API-key counters are not covered by this invariant:
`reportApiKeyUsage` sets them to nonzero values while the status stays
`Standby`. -/
theorem claim_C10_progress_invariant :
    (∀ ops : List SMOp,
      (runOps StateManager.initial ops).systemStatus ≠ IndexingState.Indexing →
      (runOps StateManager.initial ops).processedItems = 0 ∧
      (runOps StateManager.initial ops).totalItems = 0 ∧
      (runOps StateManager.initial ops).currentItemUnit = "blocks") ∧
    ((runOps StateManager.initial [SMOp.apiKeyUsage 2 3]).systemStatus =
        IndexingState.Standby ∧
      (runOps StateManager.initial [SMOp.apiKeyUsage 2 3]).currentApiKey = 2 ∧
      (runOps StateManager.initial [SMOp.apiKeyUsage 2 3]).totalApiKeys = 3) := by
  refine ⟨fun ops => ?_, by decide, by decide, by decide⟩
  exact runOps_preserves_progressInv ops StateManager.initial (fun _ => ⟨rfl, rfl, rfl⟩)

/-- C10 witness: the invariant instantiated at a concrete operation list. -/
theorem claim_C10_witness :
    (runOps StateManager.initial [SMOp.blockProgress 3 5,
      SMOp.setState .Indexed none]).processedItems = 0 ∧
    (runOps StateManager.initial [SMOp.blockProgress 3 5,
      SMOp.setState .Indexed none]).totalItems = 0 ∧
    (runOps StateManager.initial [SMOp.blockProgress 3 5,
      SMOp.setState .Indexed none]).currentItemUnit = "blocks" :=
  claim_C10_progress_invariant.1 [SMOp.blockProgress 3 5, SMOp.setState .Indexed none]
    (by decide)

/-! ## Orchestrator theorems -/

/-- C7: `startIndexing` is rejected as a no-op — vector store untouched, no
scan, `_isProcessing` unchanged — when the feature is unconfigured, a run is
already processing, or the state is outside {Standby, Error, Indexed}; in
particular a concurrent start while `_isProcessing` is true is rejected, so
at most one run can hold the flag. -/
theorem claim_C7_start_guard (env : OrchEnv) (sm0 : StateManager)
    (isProcessing0 : Bool) (cache0 : Cache)
    (hreject : env.configured = false ∨ isProcessing0 = true ∨
      (sm0.systemStatus ≠ IndexingState.Standby ∧ sm0.systemStatus ≠ IndexingState.Error ∧
        sm0.systemStatus ≠ IndexingState.Indexed)) :
    (startIndexing env sm0 isProcessing0 cache0).accepted = false ∧
    (startIndexing env sm0 isProcessing0 cache0).didInitVS = false ∧
    (startIndexing env sm0 isProcessing0 cache0).didScan = false ∧
    (startIndexing env sm0 isProcessing0 cache0).isProcessing = isProcessing0 := by
  unfold startIndexing
  by_cases hconf : env.configured = false
  · rw [hconf]
    exact ⟨rfl, rfl, rfl, rfl⟩
  · have hconf2 : env.configured = true := by
      cases h : env.configured
      · exact absurd h hconf
      · rfl
    rw [hconf2]
    have hcond : isProcessing0 = true ∨
        (sm0.systemStatus ≠ IndexingState.Standby ∧ sm0.systemStatus ≠ IndexingState.Error ∧
          sm0.systemStatus ≠ IndexingState.Indexed) := by
      rcases hreject with hc | hp | hns
      · rw [hconf2] at hc; exact absurd hc (by simp)
      · exact Or.inl hp
      · exact Or.inr hns
    simp only [Bool.not_true, Bool.false_eq_true, if_false]
    rw [if_pos hcond]
    exact ⟨rfl, rfl, rfl, rfl⟩

/-- A scanner environment with benign collaborators, for witnesses. -/
def trivialScanEnv : ScanEnv :=
  { maxFileSize := 1000
    batchThreshold := 200
    maxRetries := 3
    initialDelay := 500
    hashFn := fun s => s
    parseFn := fun _ _ => []
    batchEnv := fun _ _ => { deleteOk := true, embedOk := true, upsertOk := true }
    deletePointsOk := fun _ => true }

/-- An orchestrator environment whose feature flag is off. -/
def unconfiguredEnv : OrchEnv :=
  { configured := false
    vsInitOk := true
    collectionCreated := false
    watcherInitOk := true
    queueSize := 0
    scanEnv := trivialScanEnv
    files := [] }

/-- C7 witness: an unconfigured environment is rejected without touching
anything. -/
theorem claim_C7_witness :
    (startIndexing unconfiguredEnv StateManager.initial true []).accepted = false ∧
    (startIndexing unconfiguredEnv StateManager.initial true []).didInitVS = false ∧
    (startIndexing unconfiguredEnv StateManager.initial true []).didScan = false ∧
    (startIndexing unconfiguredEnv StateManager.initial true []).isProcessing = true :=
  claim_C7_start_guard unconfiguredEnv StateManager.initial true [] (Or.inl rfl)

/-- The C1 scenario's scanner world: ten files, each parsing to five blocks
(fifty blocks found), with every batch attempt failing at the embedder. -/
def c1ScanEnv : ScanEnv :=
  { maxFileSize := 1000
    batchThreshold := 200
    maxRetries := 3
    initialDelay := 500
    hashFn := fun s => "h" ++ s
    parseFn := fun p c => (List.range 5).map (fun i =>
      { file_path := p, content := c, start_line := i + 1, end_line := i + 1
        segmentHash := p ++ ":" ++ Nat.repr i })
    batchEnv := fun _ _ => { deleteOk := true, embedOk := false, upsertOk := false }
    deletePointsOk := fun _ => true }

/-- The C1 orchestrator environment: configured, collaborators healthy apart
from the embedder, empty watcher queue. -/
def c1Env : OrchEnv :=
  { configured := true
    vsInitOk := true
    collectionCreated := false
    watcherInitOk := true
    queueSize := 0
    scanEnv := c1ScanEnv
    files := (List.range 10).map (fun i =>
      { path := "f" ++ Nat.repr i, size := 10, content := "x" }) }

/-- C1: in the exact scenario of the claim — ten files processed, fifty
blocks found, every batch fails, zero blocks indexed, one batch error
reported — `startIndexing` does NOT abort: no error is raised and the final
state is `Indexed`, not `Error`.  The integrity check is dead because
`totalBlocksFound` is overwritten with `stats.totalBlocksIndexed` (the count
of successfully indexed blocks) right before the check, so
`cumulativeBlocksIndexed === 0 && totalBlocksFound > 0` can never hold,
contradicting the comment above the check in the source. -/
theorem claim_C1_integrity_check_dead :
    (scanDirectory c1ScanEnv c1Env.files []).allBlocks.length = 50 ∧
    (scanDirectory c1ScanEnv c1Env.files []).totalBlocksIndexed = 0 ∧
    (scanDirectory c1ScanEnv c1Env.files []).processedFiles.length = 10 ∧
    (scanDirectory c1ScanEnv c1Env.files []).events.count ScanEvent.batchError = 1 ∧
    (startIndexing c1Env StateManager.initial false []).accepted = true ∧
    (startIndexing c1Env StateManager.initial false []).threw = false ∧
    (startIndexing c1Env StateManager.initial false []).sm.systemStatus =
      IndexingState.Indexed := by decide

/-! ## `processBatch` lemmas -/

/-- A failed attempt emits no cache update. -/
theorem attemptEvents_no_cacheUpdate (bb : List CodeBlock) (bt : List String)
    (infos : List FileInfo) (a : AttemptEnv)
    (hfail : attemptSucceeds infos a = false) (p h : String) :
    ScanEvent.cacheUpdate p h ∉ attemptEvents bb bt infos a := by
  unfold attemptEvents
  unfold attemptSucceeds at hfail
  rcases a with ⟨d, e, u⟩
  by_cases hemp : (attemptDeletePaths infos).isEmpty = true
  · simp only [hemp, Bool.true_or, Bool.true_and] at hfail
    cases e <;> cases u <;> simp_all
  · have hemp2 : (attemptDeletePaths infos).isEmpty = false := by
      cases hx : (attemptDeletePaths infos).isEmpty
      · rfl
      · exact absurd hx hemp
    simp only [hemp2, Bool.false_or] at hfail
    cases d <;> cases e <;> cases u <;> simp_all

/-- A successful attempt emits, in order: the optional stale-point deletion,
the embedding call, the upsert call, the upsert success, the
`onBlocksIndexed` callback, and then the cache updates. -/
theorem attemptEvents_success_shape (bb : List CodeBlock) (bt : List String)
    (infos : List FileInfo) (a : AttemptEnv) (hs : attemptSucceeds infos a = true) :
    attemptEvents bb bt infos a =
      (if (attemptDeletePaths infos).isEmpty then ([] : List ScanEvent)
        else [ScanEvent.deleteStaleCall (attemptDeletePaths infos)]) ++
      [ScanEvent.embedCall bt, ScanEvent.upsertCall bb.length, ScanEvent.upsertOk,
        ScanEvent.blocksIndexed bb.length] ++
      infos.map (fun i => ScanEvent.cacheUpdate i.filePath i.fileHash) := by
  unfold attemptEvents
  unfold attemptSucceeds at hs
  rcases a with ⟨d, e, u⟩
  simp only [Bool.and_eq_true, Bool.or_eq_true] at hs
  obtain ⟨⟨hde, he⟩, hu⟩ := hs
  subst he hu
  rcases hde with hde | hde
  · simp [hde]
  · subst hde
    by_cases hemp : (attemptDeletePaths infos).isEmpty = true <;> simp [hemp]

/-- If every attempt fails, the retry loop leaves the cache unchanged,
returns zero, and emits no cache update beyond those already accumulated. -/
theorem processBatchGo_all_fail (d : Nat) (ae : Nat → AttemptEnv) (bb : List CodeBlock)
    (bt : List String) (infos : List FileInfo)
    (hfail : ∀ k, attemptSucceeds infos (ae k) = false) :
    ∀ (fuel made : Nat) (c : Cache) (evs : List ScanEvent),
      (processBatchGo d ae bb bt infos fuel made c evs).cache = c ∧
      (processBatchGo d ae bb bt infos fuel made c evs).indexed = 0 ∧
      (∀ p h,
        ScanEvent.cacheUpdate p h ∈ (processBatchGo d ae bb bt infos fuel made c evs).events →
        ScanEvent.cacheUpdate p h ∈ evs) := by
  intro fuel
  induction fuel with
  | zero =>
      intro made c evs
      refine ⟨rfl, rfl, fun p h hm => ?_⟩
      simp only [processBatchGo] at hm
      rcases List.mem_append.mp hm with h1 | h2
      · exact h1
      · split at h2 <;> simp_all
  | succ fuel ih =>
      intro made c evs
      simp only [processBatchGo, hfail made, Bool.false_eq_true, if_false]
      refine ⟨(ih (made + 1) c _).1, (ih (made + 1) c _).2.1, fun p h hm => ?_⟩
      have hstep := (ih (made + 1) c _).2.2 p h hm
      have hnotatt := attemptEvents_no_cacheUpdate bb bt infos (ae made) (hfail made) p h
      by_cases hf : fuel = 0
      · rw [if_pos hf] at hstep
        rcases List.mem_append.mp hstep with h1 | h2
        · exact h1
        · exact absurd h2 hnotatt
      · rw [if_neg hf] at hstep
        rcases List.mem_append.mp hstep with h1 | h2
        · rcases List.mem_append.mp h1 with h3 | h4
          · exact h3
          · exact absurd h4 hnotatt
        · simp at h2

/-- Splitting an append at an element that does not occur in the left part:
the split prefix contains everything the left part contains. -/
theorem upsertOk_before_cacheUpdate_of_append (P Q : List ScanEvent)
    (hok : ScanEvent.upsertOk ∈ P) (hnc : ∀ p h, ScanEvent.cacheUpdate p h ∉ P) :
    ∀ (l1 l2 : List ScanEvent) (p h : String),
      P ++ Q = l1 ++ ScanEvent.cacheUpdate p h :: l2 → ScanEvent.upsertOk ∈ l1 := by
  intro l1 l2 p h heq
  rcases List.append_eq_append_iff.mp heq with ⟨a, ha1, ha2⟩ | ⟨a, ha1, ha2⟩
  · rw [ha1]
    exact List.mem_append.mpr (Or.inl hok)
  · cases a with
    | nil =>
        rw [List.append_nil] at ha1
        rw [← ha1]
        exact hok
    | cons x t =>
        exfalso
        simp only [List.cons_append] at ha2
        injection ha2 with hx _
        apply hnc p h
        rw [ha1, hx]
        simp

/-- In any trace of the retry loop whose accumulated prefix holds no cache
update, every cache update is preceded by an `upsertOk`. -/
theorem processBatchGo_cacheUpdate_after_upsertOk (d : Nat) (ae : Nat → AttemptEnv)
    (bb : List CodeBlock) (bt : List String) (infos : List FileInfo) :
    ∀ (fuel made : Nat) (c : Cache) (evs : List ScanEvent),
      (∀ p h, ScanEvent.cacheUpdate p h ∉ evs) →
      ∀ (l1 l2 : List ScanEvent) (p h : String),
        (processBatchGo d ae bb bt infos fuel made c evs).events =
          l1 ++ ScanEvent.cacheUpdate p h :: l2 →
        ScanEvent.upsertOk ∈ l1 := by
  intro fuel
  induction fuel with
  | zero =>
      intro made c evs hno l1 l2 p h heq
      exfalso
      have hmem : ScanEvent.cacheUpdate p h ∈
          (processBatchGo d ae bb bt infos 0 made c evs).events := by
        rw [heq]; simp
      simp only [processBatchGo] at hmem
      rcases List.mem_append.mp hmem with h1 | h2
      · exact hno p h h1
      · split at h2 <;> simp_all
  | succ fuel ih =>
      intro made c evs hno l1 l2 p h heq
      simp only [processBatchGo] at heq
      by_cases hsucc : attemptSucceeds infos (ae made) = true
      · rw [if_pos hsucc] at heq
        simp only at heq
        rw [attemptEvents_success_shape bb bt infos (ae made) hsucc] at heq
        refine upsertOk_before_cacheUpdate_of_append
          (evs ++ ((if (attemptDeletePaths infos).isEmpty then ([] : List ScanEvent)
            else [ScanEvent.deleteStaleCall (attemptDeletePaths infos)]) ++
            [ScanEvent.embedCall bt, ScanEvent.upsertCall bb.length, ScanEvent.upsertOk,
              ScanEvent.blocksIndexed bb.length]))
          (infos.map (fun i => ScanEvent.cacheUpdate i.filePath i.fileHash))
          (by simp) ?_ l1 l2 p h (by simpa [List.append_assoc] using heq)
        intro q g hmem
        rcases List.mem_append.mp hmem with h1 | h2
        · exact hno q g h1
        · rcases List.mem_append.mp h2 with h3 | h4
          · split at h3 <;> simp_all
          · simp_all
      · rw [if_neg hsucc] at heq
        have hfailb : attemptSucceeds infos (ae made) = false := by
          cases hx : attemptSucceeds infos (ae made)
          · rfl
          · exact absurd hx hsucc
        have hnot := attemptEvents_no_cacheUpdate bb bt infos (ae made) hfailb
        refine ih (made + 1) c _ ?_ l1 l2 p h heq
        intro q g hmem
        by_cases hf : fuel = 0
        · rw [if_pos hf] at hmem
          rcases List.mem_append.mp hmem with h1 | h2
          · exact hno q g h1
          · exact absurd h2 (hnot q g)
        · rw [if_neg hf] at hmem
          rcases List.mem_append.mp hmem with h1 | h2
          · rcases List.mem_append.mp h1 with h3 | h4
            · exact hno q g h3
            · exact absurd h4 (hnot q g)
          · simp at h2

/-- C2: cache entries are updated only after the batch's upsert has returned
successfully.  (i) a failing attempt (upsert or any earlier step) performs no
cache update; (ii) if every attempt fails, the batch leaves the cache exactly
as it was and its trace holds no cache update; (iii) in every `processBatch`
trace, any cache update is preceded by a successful upsert. -/
theorem claim_C2_cache_update_only_after_upsert (maxRetries initialDelay : Nat)
    (ae : Nat → AttemptEnv) (bb : List CodeBlock) (bt : List String)
    (infos : List FileInfo) (c : Cache) :
    (∀ a : AttemptEnv, attemptSucceeds infos a = false →
      ∀ p h, ScanEvent.cacheUpdate p h ∉ attemptEvents bb bt infos a) ∧
    ((∀ k, attemptSucceeds infos (ae k) = false) →
      (processBatch maxRetries initialDelay ae bb bt infos c).cache = c ∧
      (∀ p h, ScanEvent.cacheUpdate p h ∉
        (processBatch maxRetries initialDelay ae bb bt infos c).events)) ∧
    (∀ (l1 l2 : List ScanEvent) (p h : String),
      (processBatch maxRetries initialDelay ae bb bt infos c).events =
        l1 ++ ScanEvent.cacheUpdate p h :: l2 →
      ScanEvent.upsertOk ∈ l1) := by
  refine ⟨fun a hf p h => attemptEvents_no_cacheUpdate bb bt infos a hf p h, ?_, ?_⟩
  · intro hfail
    unfold processBatch
    split
    · exact ⟨rfl, by simp⟩
    · refine ⟨(processBatchGo_all_fail initialDelay ae bb bt infos hfail maxRetries 0 c []).1,
        fun p h hm => ?_⟩
      have := (processBatchGo_all_fail initialDelay ae bb bt infos hfail maxRetries 0 c []).2.2
        p h hm
      simp at this
  · intro l1 l2 p h heq
    unfold processBatch at heq
    split at heq
    · exfalso
      have : ScanEvent.cacheUpdate p h ∈ ([] : List ScanEvent) := by
        rw [show ([] : List ScanEvent) =
          l1 ++ ScanEvent.cacheUpdate p h :: l2 from heq]
        simp
      simp at this
    · exact processBatchGo_cacheUpdate_after_upsertOk initialDelay ae bb bt infos
        maxRetries 0 c [] (by simp) l1 l2 p h heq

/-- Sleep-event test for the backoff trace. -/
def isSleep : ScanEvent → Bool
  | .sleep _ => true
  | _ => false

/-- The expected backoff trace: `n` sleeps whose delays start at
`d * 2 ^ made` and double each time. -/
def expDelays (d : Nat) : Nat → Nat → List ScanEvent
  | _, 0 => []
  | made, n + 1 => ScanEvent.sleep (d * 2 ^ made) :: expDelays d (made + 1) n

/-- `expDelays` in closed form. -/
theorem expDelays_eq_range_map (d : Nat) : ∀ (n made : Nat),
    expDelays d made n = (List.range n).map (fun k => ScanEvent.sleep (d * 2 ^ (made + k))) := by
  intro n
  induction n with
  | zero => intro made; rfl
  | succ n ih =>
      intro made
      rw [List.range_succ_eq_map]
      simp only [expDelays, List.map_cons, List.map_map]
      congr 1
      rw [ih (made + 1)]
      apply List.map_congr_left
      intro k _
      simp only [Function.comp_apply]
      have hx : made + 1 + k = made + k.succ := by omega
      rw [hx]

/-- One attempt emits no sleep event. -/
theorem attemptEvents_no_sleep (bb : List CodeBlock) (bt : List String)
    (infos : List FileInfo) (a : AttemptEnv) :
    (attemptEvents bb bt infos a).filter isSleep = [] := by
  unfold attemptEvents
  rcases a with ⟨d, e, u⟩
  by_cases hemp : (attemptDeletePaths infos).isEmpty = true <;>
    cases d <;> cases e <;> cases u <;>
    simp_all [isSleep, List.filter_append, List.filter_map]

/-- One attempt emits no batch-error report. -/
theorem attemptEvents_no_batchError (bb : List CodeBlock) (bt : List String)
    (infos : List FileInfo) (a : AttemptEnv) :
    ScanEvent.batchError ∉ attemptEvents bb bt infos a := by
  unfold attemptEvents
  rcases a with ⟨d, e, u⟩
  by_cases hemp : (attemptDeletePaths infos).isEmpty = true <;>
    cases d <;> cases e <;> cases u <;>
    simp_all

/-- The retry loop never makes more attempts than it has fuel. -/
theorem processBatchGo_attempts_le (d : Nat) (ae : Nat → AttemptEnv)
    (bb : List CodeBlock) (bt : List String) (infos : List FileInfo) :
    ∀ (fuel made : Nat) (c : Cache) (evs : List ScanEvent),
      (processBatchGo d ae bb bt infos fuel made c evs).attemptsMade ≤ made + fuel := by
  intro fuel
  induction fuel with
  | zero => intro made c evs; simp [processBatchGo]
  | succ fuel ih =>
      intro made c evs
      simp only [processBatchGo]
      split
      · simp
      · have := ih (made + 1) c
          (if fuel = 0 then evs ++ attemptEvents bb bt infos (ae made)
            else evs ++ attemptEvents bb bt infos (ae made) ++
              [ScanEvent.sleep (d * 2 ^ made)])
        omega

/-- When every attempt fails: the loop uses all its fuel, reports the batch
error once, and sleeps with doubling delays between attempts. -/
theorem processBatchGo_all_fail_stats (d : Nat) (ae : Nat → AttemptEnv)
    (bb : List CodeBlock) (bt : List String) (infos : List FileInfo)
    (hfail : ∀ k, attemptSucceeds infos (ae k) = false) :
    ∀ (fuel made : Nat) (c : Cache) (evs : List ScanEvent),
      (processBatchGo d ae bb bt infos fuel made c evs).attemptsMade = made + fuel ∧
      (processBatchGo d ae bb bt infos fuel made c evs).events.count ScanEvent.batchError =
        evs.count ScanEvent.batchError + (if 0 < made + fuel then 1 else 0) ∧
      (processBatchGo d ae bb bt infos fuel made c evs).events.filter isSleep =
        evs.filter isSleep ++ expDelays d made (fuel - 1) := by
  intro fuel
  induction fuel with
  | zero =>
      intro made c evs
      refine ⟨rfl, ?_, ?_⟩
      · show (evs ++ (if 0 < made then [ScanEvent.batchError] else [])).count
            ScanEvent.batchError = _
        by_cases hm : 0 < made
        · rw [if_pos hm, List.count_append, if_pos (show 0 < made + 0 by omega)]
          simp
        · rw [if_neg hm, List.count_append, if_neg (show ¬ 0 < made + 0 by omega)]
          simp
      · show (evs ++ (if 0 < made then [ScanEvent.batchError] else [])).filter isSleep = _
        rw [List.filter_append]
        split <;> simp [isSleep, expDelays]
  | succ fuel ih =>
      intro made c evs
      simp only [processBatchGo, hfail made, Bool.false_eq_true, if_false]
      set evs2 := if fuel = 0 then evs ++ attemptEvents bb bt infos (ae made)
        else evs ++ attemptEvents bb bt infos (ae made) ++
          [ScanEvent.sleep (d * 2 ^ made)] with hevs2
      obtain ⟨h1, h2, h3⟩ := ih (made + 1) c evs2
      refine ⟨by omega, ?_, ?_⟩
      · rw [h2]
        have hcnt : evs2.count ScanEvent.batchError = evs.count ScanEvent.batchError := by
          rw [hevs2]
          split <;>
            simp [List.count_append,
              List.count_eq_zero_of_not_mem (attemptEvents_no_batchError bb bt infos (ae made))]
        rw [hcnt, if_pos (show 0 < made + 1 + fuel by omega),
          if_pos (show 0 < made + (fuel + 1) by omega)]
      · rw [h3]
        have hflt : evs2.filter isSleep = evs.filter isSleep ++
            (if fuel = 0 then [] else [ScanEvent.sleep (d * 2 ^ made)]) := by
          rw [hevs2]
          split <;> simp [List.filter_append, attemptEvents_no_sleep, isSleep]
        rw [hflt]
        by_cases hf : fuel = 0
        · subst hf
          simp [expDelays]
        · rw [if_neg hf, show (fuel + 1 - 1) = (fuel - 1) + 1 by omega]
          simp [expDelays, List.append_assoc]

/-- If attempt `k` (zero-based, counted from `made`) succeeds and all earlier
ones fail, the loop returns the block count and applies the cache updates. -/
theorem processBatchGo_succeeds (d : Nat) (ae : Nat → AttemptEnv) (bb : List CodeBlock)
    (bt : List String) (infos : List FileInfo) :
    ∀ (k fuel made : Nat) (c : Cache) (evs : List ScanEvent),
      k < fuel →
      attemptSucceeds infos (ae (made + k)) = true →
      (∀ m, m < k → attemptSucceeds infos (ae (made + m)) = false) →
      (processBatchGo d ae bb bt infos fuel made c evs).indexed = bb.length ∧
      (processBatchGo d ae bb bt infos fuel made c evs).cache = updateHashes c infos := by
  intro k
  induction k with
  | zero =>
      intro fuel made c evs hk hs _
      cases fuel with
      | zero => omega
      | succ f =>
          simp only [processBatchGo]
          rw [Nat.add_zero] at hs
          rw [if_pos hs]
          exact ⟨rfl, rfl⟩
  | succ k ih =>
      intro fuel made c evs hk hs hprev
      cases fuel with
      | zero => omega
      | succ f =>
          simp only [processBatchGo]
          have h0 : attemptSucceeds infos (ae made) = false := by
            have := hprev 0 (by omega)
            rwa [Nat.add_zero] at this
          rw [h0]
          simp only [Bool.false_eq_true, if_false]
          refine ih f (made + 1) c _ (by omega) ?_ ?_
          · rw [show made + 1 + k = made + (k + 1) by omega]
            exact hs
          · intro m hm
            rw [show made + 1 + m = made + (m + 1) by omega]
            exact hprev (m + 1) (by omega)

/-- `processBatch` on a nonempty batch whose attempt `k` is the first to
succeed: the batch completes with its full count and cache updates. -/
theorem processBatch_succeeds (maxRetries d : Nat) (ae : Nat → AttemptEnv)
    (bb : List CodeBlock) (bt : List String) (infos : List FileInfo) (c : Cache)
    (k : Nat) (hbb : bb ≠ []) (hk : k < maxRetries)
    (hs : attemptSucceeds infos (ae k) = true)
    (hprev : ∀ m, m < k → attemptSucceeds infos (ae m) = false) :
    (processBatch maxRetries d ae bb bt infos c).indexed = bb.length ∧
    (processBatch maxRetries d ae bb bt infos c).cache = updateHashes c infos := by
  unfold processBatch
  rw [if_neg (by simpa using hbb)]
  have := processBatchGo_succeeds d ae bb bt infos k maxRetries 0 c [] hk
    (by simpa using hs) (by simpa using hprev)
  exact this

/-! ## Cache lemmas -/

/-- Lookup after the in-place-replacement branch of `updateHash`. -/
theorem getHash_map_update_self (c : Cache) (p h : String)
    (hany : c.any (fun kv => kv.1 == p) = true) :
    getHash (c.map (fun kv => if kv.1 == p then (p, h) else kv)) p = some h := by
  induction c with
  | nil => simp at hany
  | cons kv rest ih =>
      simp only [List.map_cons]
      by_cases hkv : (kv.1 == p) = true
      · rw [if_pos hkv]
        unfold getHash
        simp
      · rw [if_neg hkv]
        have hrest : rest.any (fun kv => kv.1 == p) = true := by
          simp only [List.any_cons, hkv, Bool.false_or] at hany
          exact hany
        unfold getHash
        rw [List.find?_cons_of_neg _ (by simpa using hkv)]
        exact ih hrest

/-- Lookup after the append branch of `updateHash`. -/
theorem getHash_append_self (c : Cache) (p h : String)
    (hany : c.any (fun kv => kv.1 == p) = false) :
    getHash (c ++ [(p, h)]) p = some h := by
  induction c with
  | nil =>
      unfold getHash
      simp
  | cons kv rest ih =>
      simp only [List.any_cons, Bool.or_eq_false_iff] at hany
      unfold getHash
      simp only [List.cons_append]
      rw [List.find?_cons_of_neg _ (by simpa using hany.1)]
      exact ih hany.2

/-- After `updateHash c p h`, looking up `p` yields `h`. -/
theorem getHash_updateHash_self (c : Cache) (p h : String) :
    getHash (updateHash c p h) p = some h := by
  unfold updateHash
  split
  · rename_i hany
    exact getHash_map_update_self c p h hany
  · rename_i hany
    refine getHash_append_self c p h ?_
    cases hx : c.any (fun kv => kv.1 == p)
    · rfl
    · exact absurd hx hany

/-- The in-place-replacement branch does not change other keys. -/
theorem getHash_map_update_other (c : Cache) (p q h : String) (hpq : q ≠ p) :
    getHash (c.map (fun kv => if kv.1 == q then (q, h) else kv)) p = getHash c p := by
  induction c with
  | nil => rfl
  | cons kv rest ih =>
      simp only [List.map_cons]
      unfold getHash
      by_cases hkv : (kv.1 == q) = true
      · rw [if_pos hkv]
        have hkp : (kv.1 == p) = false := by
          have hkq : kv.1 = q := by simpa using hkv
          simp [hkq, hpq]
        rw [List.find?_cons_of_neg _ (by simp [hpq]),
          List.find?_cons_of_neg _ (by simpa using hkp)]
        exact ih
      · rw [if_neg hkv]
        by_cases hkp : (kv.1 == p) = true
        · rw [List.find?_cons_of_pos _ (by simpa using hkp),
            List.find?_cons_of_pos _ (by simpa using hkp)]
        · rw [List.find?_cons_of_neg _ (by simpa using hkp),
            List.find?_cons_of_neg _ (by simpa using hkp)]
          exact ih

/-- Appending an entry for another key does not change a lookup. -/
theorem getHash_append_other (c : Cache) (p q h : String) (hpq : q ≠ p) :
    getHash (c ++ [(q, h)]) p = getHash c p := by
  induction c with
  | nil =>
      unfold getHash
      simp [hpq]
  | cons kv rest ih =>
      unfold getHash
      simp only [List.cons_append]
      by_cases hkp : (kv.1 == p) = true
      · rw [List.find?_cons_of_pos _ (by simpa using hkp),
          List.find?_cons_of_pos _ (by simpa using hkp)]
      · rw [List.find?_cons_of_neg _ (by simpa using hkp),
          List.find?_cons_of_neg _ (by simpa using hkp)]
        simpa [getHash] using ih

/-- `updateHash` for a different key leaves a lookup unchanged. -/
theorem getHash_updateHash_other (c : Cache) (p q h : String) (hpq : q ≠ p) :
    getHash (updateHash c q h) p = getHash c p := by
  unfold updateHash
  split
  · exact getHash_map_update_other c p q h hpq
  · exact getHash_append_other c p q h hpq

/-- `updateHashes` over a snoc. -/
theorem updateHashes_append_singleton (c : Cache) (ys : List FileInfo) (y : FileInfo) :
    updateHashes c (ys ++ [y]) = updateHash (updateHashes c ys) y.filePath y.fileHash := by
  simp [updateHashes, List.foldl_append]

/-- `updateHashes` does not touch keys outside its info list. -/
theorem getHash_updateHashes_not_mem (infos : List FileInfo) (c : Cache) (p : String)
    (hno : ∀ i ∈ infos, i.filePath ≠ p) :
    getHash (updateHashes c infos) p = getHash c p := by
  induction infos using List.reverseRecOn with
  | nil => rfl
  | append_singleton ys y ih =>
      rw [updateHashes_append_singleton,
        getHash_updateHash_other _ _ _ _ (hno y (by simp))]
      exact ih (fun i hi => hno i (by simp [hi]))

/-- `updateHashes` with path-consistent infos stores every listed hash. -/
theorem getHash_updateHashes_mem (infos : List FileInfo) (c : Cache) (info : FileInfo)
    (hmem : info ∈ infos)
    (hcons : ∀ i1 ∈ infos, ∀ i2 ∈ infos, i1.filePath = i2.filePath →
      i1.fileHash = i2.fileHash) :
    getHash (updateHashes c infos) info.filePath = some info.fileHash := by
  induction infos using List.reverseRecOn with
  | nil => simp at hmem
  | append_singleton ys y ih =>
      rw [updateHashes_append_singleton]
      by_cases hy : y.filePath = info.filePath
      · rw [hy, getHash_updateHash_self]
        have := hcons y (by simp) info hmem hy
        rw [this]
      · rw [getHash_updateHash_other _ _ _ _ hy]
        have hmem2 : info ∈ ys := by
          rcases List.mem_append.mp hmem with hm | hm
          · exact hm
          · simp only [List.mem_singleton] at hm
            exact absurd (hm ▸ rfl) hy
        exact ih hmem2 (fun i1 h1 i2 h2 => hcons i1 (by simp [h1]) i2 (by simp [h2]))

/-- `updateHashes` preserves a stored hash that all its infos agree with. -/
theorem getHash_updateHashes_agree (infos : List FileInfo) (c : Cache) (p h : String)
    (hc : getHash c p = some h)
    (hagree : ∀ i ∈ infos, i.filePath = p → i.fileHash = h) :
    getHash (updateHashes c infos) p = some h := by
  induction infos using List.reverseRecOn with
  | nil => exact hc
  | append_singleton ys y ih =>
      rw [updateHashes_append_singleton]
      by_cases hy : y.filePath = p
      · rw [← hy, getHash_updateHash_self, hagree y (by simp) hy]
      · rw [getHash_updateHash_other _ _ _ _ hy]
        exact ih (fun i hi hip => hagree i (by simp [hi]) hip)

/-- The retry loop leaves the cache unchanged or applies exactly its updates. -/
theorem processBatchGo_cache_cases (d : Nat) (ae : Nat → AttemptEnv) (bb : List CodeBlock)
    (bt : List String) (infos : List FileInfo) :
    ∀ (fuel made : Nat) (c : Cache) (evs : List ScanEvent),
      (processBatchGo d ae bb bt infos fuel made c evs).cache = c ∨
      (processBatchGo d ae bb bt infos fuel made c evs).cache = updateHashes c infos := by
  intro fuel
  induction fuel with
  | zero => intro made c evs; exact Or.inl rfl
  | succ fuel ih =>
      intro made c evs
      simp only [processBatchGo]
      split
      · exact Or.inr rfl
      · exact ih (made + 1) c _

/-- `processBatch` leaves the cache unchanged or applies exactly its updates. -/
theorem processBatch_cache_cases (maxRetries d : Nat) (ae : Nat → AttemptEnv)
    (bb : List CodeBlock) (bt : List String) (infos : List FileInfo) (c : Cache) :
    (processBatch maxRetries d ae bb bt infos c).cache = c ∨
    (processBatch maxRetries d ae bb bt infos c).cache = updateHashes c infos := by
  unfold processBatch
  split
  · exact Or.inl rfl
  · exact processBatchGo_cache_cases d ae bb bt infos maxRetries 0 c []

/-- Later batches preserve a stored hash that the global info list agrees
with. -/
theorem runBatches_preserves_getHash (env : ScanEnv) (allInfos : List FileInfo)
    (p h : String) (hagree : ∀ i ∈ allInfos, i.filePath = p → i.fileHash = h) :
    ∀ (bs : List (List CodeBlock)) (i0 : Nat) (c : Cache),
      getHash c p = some h →
      getHash (runBatches env allInfos bs i0 c).2.1 p = some h := by
  intro bs
  induction bs with
  | nil => intro i0 c hc; exact hc
  | cons b rest ih =>
      intro i0 c hc
      show getHash (runBatches env allInfos rest (i0 + 1)
        (processBatch env.maxRetries env.initialDelay (env.batchEnv i0) b
          (batchTextsOf b) (batchInfosOf allInfos b) c).cache).2.1 p = some h
      apply ih
      rcases processBatch_cache_cases env.maxRetries env.initialDelay (env.batchEnv i0) b
        (batchTextsOf b) (batchInfosOf allInfos b) c with hcc | hcc
      · rw [hcc]; exact hc
      · rw [hcc]
        refine getHash_updateHashes_agree _ c p h hc ?_
        intro i hi hip
        exact hagree i (List.mem_filter.mp hi).1 hip

/-- Batch-failure isolation: a batch whose first successful attempt comes
within the retry budget gets all its files' hashes into the final cache, no
matter what the other batches do. -/
theorem runBatches_isolation (env : ScanEnv) (allInfos : List FileInfo)
    (hcons : ∀ i1 ∈ allInfos, ∀ i2 ∈ allInfos, i1.filePath = i2.filePath →
      i1.fileHash = i2.fileHash) :
    ∀ (bs : List (List CodeBlock)) (i0 : Nat) (c : Cache) (j : Nat) (b : List CodeBlock),
      bs.get? j = some b → b ≠ [] →
      (∃ k, k < env.maxRetries ∧
        attemptSucceeds (batchInfosOf allInfos b) (env.batchEnv (i0 + j) k) = true ∧
        ∀ m, m < k →
          attemptSucceeds (batchInfosOf allInfos b) (env.batchEnv (i0 + j) m) = false) →
      ∀ info, info ∈ batchInfosOf allInfos b →
        getHash (runBatches env allInfos bs i0 c).2.1 info.filePath =
          some info.fileHash := by
  intro bs
  induction bs with
  | nil =>
      intro i0 c j b hj
      simp at hj
  | cons b0 rest ih =>
      intro i0 c j b hj hbne hsucc info hinfo
      cases j with
      | zero =>
          have hb : b = b0 := by
            simpa using hj.symm
          subst hb
          rw [Nat.add_zero] at hsucc
          obtain ⟨k, hk, hks, hkp⟩ := hsucc
          have hcache := (processBatch_succeeds env.maxRetries env.initialDelay
            (env.batchEnv i0) b (batchTextsOf b) (batchInfosOf allInfos b) c k
            hbne hk hks hkp).2
          show getHash (runBatches env allInfos rest (i0 + 1)
            (processBatch env.maxRetries env.initialDelay (env.batchEnv i0) b
              (batchTextsOf b) (batchInfosOf allInfos b) c).cache).2.1 info.filePath =
            some info.fileHash
          rw [hcache]
          refine runBatches_preserves_getHash env allInfos info.filePath info.fileHash
            ?_ rest (i0 + 1) _ ?_
          · intro i hi hip
            exact hcons i hi info (List.mem_filter.mp hinfo).1 hip
          · refine getHash_updateHashes_mem _ c info hinfo ?_
            intro i1 h1 i2 h2 hp
            exact hcons i1 (List.mem_filter.mp h1).1 i2 (List.mem_filter.mp h2).1 hp
      | succ j =>
          have hj2 : rest.get? j = some b := by simpa using hj
          have hsucc2 : ∃ k, k < env.maxRetries ∧
              attemptSucceeds (batchInfosOf allInfos b) (env.batchEnv (i0 + 1 + j) k) =
                true ∧
              ∀ m, m < k → attemptSucceeds (batchInfosOf allInfos b)
                (env.batchEnv (i0 + 1 + j) m) = false := by
            rw [show i0 + 1 + j = i0 + (j + 1) by omega]
            exact hsucc
          exact ih (i0 + 1) _ j b hj2 hbne hsucc2 info hinfo

/-- C6: `processBatch` makes at most `MAX_BATCH_RETRIES` attempts; when every
attempt fails it uses exactly that many, reports the failure exactly once via
`onError`, returns 0, and its backoff delays double per attempt from
`INITIAL_RETRY_DELAY_MS`; a batch whose first success comes within the budget
completes with its full count and cache updates; and a successful batch's
files keep their updated cache entries in the final cache no matter what the
other batches do (batch-level failure isolation). -/
theorem claim_C6_batch_retry_and_isolation (maxRetries initialDelay : Nat)
    (ae : Nat → AttemptEnv) (bb : List CodeBlock) (bt : List String)
    (infos : List FileInfo) (c : Cache) (hmr : 1 ≤ maxRetries) (hbb : bb ≠ []) :
    (processBatch maxRetries initialDelay ae bb bt infos c).attemptsMade ≤ maxRetries ∧
    ((∀ k, attemptSucceeds infos (ae k) = false) →
      (processBatch maxRetries initialDelay ae bb bt infos c).attemptsMade = maxRetries ∧
      (processBatch maxRetries initialDelay ae bb bt infos c).indexed = 0 ∧
      (processBatch maxRetries initialDelay ae bb bt infos c).events.count
        ScanEvent.batchError = 1 ∧
      (processBatch maxRetries initialDelay ae bb bt infos c).events.filter isSleep =
        (List.range (maxRetries - 1)).map
          (fun k => ScanEvent.sleep (initialDelay * 2 ^ k))) ∧
    (∀ k, k < maxRetries → attemptSucceeds infos (ae k) = true →
      (∀ m, m < k → attemptSucceeds infos (ae m) = false) →
      (processBatch maxRetries initialDelay ae bb bt infos c).indexed = bb.length ∧
      (processBatch maxRetries initialDelay ae bb bt infos c).cache =
        updateHashes c infos) ∧
    (∀ (env : ScanEnv) (allInfos : List FileInfo),
      (∀ i1 ∈ allInfos, ∀ i2 ∈ allInfos, i1.filePath = i2.filePath →
        i1.fileHash = i2.fileHash) →
      ∀ (bs : List (List CodeBlock)) (j : Nat) (b : List CodeBlock),
        bs.get? j = some b → b ≠ [] →
        (∃ k, k < env.maxRetries ∧
          attemptSucceeds (batchInfosOf allInfos b) (env.batchEnv j k) = true ∧
          ∀ m, m < k →
            attemptSucceeds (batchInfosOf allInfos b) (env.batchEnv j m) = false) →
        ∀ info, info ∈ batchInfosOf allInfos b →
          getHash (runBatches env allInfos bs 0 c).2.1 info.filePath =
            some info.fileHash) := by
  have hbbe : bb.isEmpty = false := by simpa using hbb
  refine ⟨?_, ?_, ?_, ?_⟩
  · unfold processBatch
    rw [if_neg (by simp [hbbe])]
    have := processBatchGo_attempts_le initialDelay ae bb bt infos maxRetries 0 c []
    omega
  · intro hfail
    unfold processBatch
    rw [if_neg (by simp [hbbe])]
    obtain ⟨h1, h2, h3⟩ := processBatchGo_all_fail_stats initialDelay ae bb bt infos hfail
      maxRetries 0 c []
    refine ⟨by omega,
      (processBatchGo_all_fail initialDelay ae bb bt infos hfail maxRetries 0 c []).2.1,
      ?_, ?_⟩
    · rw [h2]
      simp only [List.count_nil]
      rw [if_pos (by omega)]
    · rw [h3, expDelays_eq_range_map]
      simp
  · intro k hk hks hkp
    exact processBatch_succeeds maxRetries initialDelay ae bb bt infos c k hbb hk hks hkp
  · intro env allInfos hcons bs j b hj hbne hsucc info hinfo
    refine runBatches_isolation env allInfos hcons bs 0 c j b hj hbne ?_ info hinfo
    rw [show (0 + j) = j by omega]
    exact hsucc

/-- A one-block batch for witnesses. -/
def c2Block : CodeBlock :=
  { file_path := "a", content := "x", start_line := 1, end_line := 1, segmentHash := "s" }

/-- The file info of `c2Block`. -/
def c2Info : FileInfo := { filePath := "a", fileHash := "h1", isNew := true }

/-- C2 witness: with an embedder that always fails, three retries leave the
pre-existing cache entry untouched. -/
theorem claim_C2_witness :
    (processBatch 3 500 (fun _ => { deleteOk := true, embedOk := false, upsertOk := false })
      [c2Block] ["x"] [c2Info] [("a", "old")]).cache = [("a", "old")] :=
  ((claim_C2_cache_update_only_after_upsert 3 500
    (fun _ => { deleteOk := true, embedOk := false, upsertOk := false })
    [c2Block] ["x"] [c2Info] [("a", "old")]).2.1 (fun _ => by decide)).1

/-! ## Per-file-phase lemmas -/

/-- A file whose cached hash equals its current content hash is skipped
entirely: no parse, no accumulation, no cache change, one skip tick.  (An
oversized file is skipped the same way before the hash is even consulted.) -/
theorem processFile_unchanged_fields (env : ScanEnv) (total : Nat) (s : ScanState)
    (f : FileEntry) (hskip : getHash s.cache f.path = some (env.hashFn f.content)) :
    (processFile env total s f).processedCount = s.processedCount ∧
    (processFile env total s f).skippedCount = s.skippedCount + 1 ∧
    (processFile env total s f).cache = s.cache ∧
    (processFile env total s f).blocks = s.blocks ∧
    (processFile env total s f).fileInfos = s.fileInfos ∧
    (processFile env total s f).events =
      s.events ++ [ScanEvent.fileProgress (s.fileNumber + 1) total f.path] := by
  unfold processFile
  dsimp only
  by_cases hsize : f.size > env.maxFileSize
  · rw [if_pos hsize]
    exact ⟨rfl, rfl, rfl, rfl, rfl, rfl⟩
  · rw [if_neg hsize, if_pos hskip]
    exact ⟨rfl, rfl, rfl, rfl, rfl, rfl⟩

/-- The per-file fold over files that are all cache-unchanged: nothing is
processed, everything is skipped, nothing accumulates, and only file-progress
events are emitted. -/
theorem scan_fold_all_unchanged (env : ScanEnv) (total : Nat) :
    ∀ (files : List FileEntry) (s : ScanState),
      (∀ f ∈ files, getHash s.cache f.path = some (env.hashFn f.content)) →
      (files.foldl (processFile env total) s).processedCount = s.processedCount ∧
      (files.foldl (processFile env total) s).skippedCount =
        s.skippedCount + files.length ∧
      (files.foldl (processFile env total) s).cache = s.cache ∧
      (files.foldl (processFile env total) s).blocks = s.blocks ∧
      (files.foldl (processFile env total) s).fileInfos = s.fileInfos ∧
      (∀ e ∈ (files.foldl (processFile env total) s).events,
        e ∈ s.events ∨ ∃ n t p, e = ScanEvent.fileProgress n t p) := by
  intro files
  induction files with
  | nil =>
      intro s _
      exact ⟨rfl, rfl, rfl, rfl, rfl, fun e he => Or.inl he⟩
  | cons f rest ih =>
      intro s hun
      obtain ⟨h1, h2, h3, h4, h5, h6⟩ :=
        processFile_unchanged_fields env total s f (hun f (by simp))
      have hrest : ∀ g ∈ rest, getHash (processFile env total s f).cache g.path =
          some (env.hashFn g.content) := by
        intro g hg
        rw [h3]
        exact hun g (by simp [hg])
      obtain ⟨g1, g2, g3, g4, g5, g6⟩ := ih (processFile env total s f) hrest
      simp only [List.foldl_cons]
      refine ⟨by rw [g1, h1], by rw [g2, h2, List.length_cons]; omega,
        by rw [g3, h3], by rw [g4, h4], by rw [g5, h5], ?_⟩
      intro e he
      rcases g6 e he with hm | hm
      · rw [h6] at hm
        rcases List.mem_append.mp hm with hm2 | hm2
        · exact Or.inl hm2
        · simp only [List.mem_singleton] at hm2
          exact Or.inr ⟨_, _, _, hm2⟩
      · exact Or.inr hm

/-- The deletion pass emits only point-deletion, cache-delete and
delete-error events. -/
theorem deletionPass_events_shape (env : ScanEnv) (pf : List String) :
    ∀ (snapshot : List (String × String)) (c : Cache),
      ∀ e ∈ (deletionPass env pf snapshot c).2,
        (∃ p, e = ScanEvent.deletePointsCall p) ∨ (∃ p, e = ScanEvent.cacheDelete p) ∨
        (∃ p, e = ScanEvent.deleteError p) := by
  intro snapshot
  induction snapshot with
  | nil => intro c e he; simp [deletionPass] at he
  | cons kv rest ih =>
      intro c e he
      rcases kv with ⟨p, hh⟩
      simp only [deletionPass] at he
      split at he
      · exact ih c e he
      · split at he
        · simp only [List.mem_cons] at he
          rcases he with he | he | he
          · exact Or.inl ⟨p, he⟩
          · exact Or.inr (Or.inl ⟨p, he⟩)
          · exact ih _ e he
        · simp only [List.mem_cons] at he
          rcases he with he | he | he
          · exact Or.inl ⟨p, he⟩
          · exact Or.inr (Or.inr ⟨p, he⟩)
          · exact ih _ e he

/-- C4: re-scanning when every file's cached hash equals its current content
hash parses nothing, embeds nothing, processes zero files and skips all `N`
of them. -/
theorem claim_C4_unchanged_rescan_noop (env : ScanEnv) (files : List FileEntry)
    (cache : Cache)
    (hun : ∀ f ∈ files, getHash cache f.path = some (env.hashFn f.content)) :
    (scanDirectory env files cache).processed = 0 ∧
    (scanDirectory env files cache).skipped = files.length ∧
    (∀ p, ScanEvent.parseCall p ∉ (scanDirectory env files cache).events) ∧
    (∀ ts, ScanEvent.embedCall ts ∉ (scanDirectory env files cache).events) := by
  obtain ⟨h1, h2, h3, h4, h5, h6⟩ :=
    scan_fold_all_unchanged env files.length files (initialScanState cache)
      (fun f hf => hun f hf)
  have hblocks : (scanFold env files cache).blocks = [] := h4
  have hbatches : scanBatches env files cache = [] := by
    unfold scanBatches
    rw [hblocks]
    unfold chunks
    split <;> rfl
  have hbp : scanBatchPhase env files cache =
      (0, (scanFold env files cache).cache, []) := by
    unfold scanBatchPhase
    rw [hbatches]
    rfl
  simp only [scanDirectory]
  refine ⟨by simpa [initialScanState] using h1, by simpa [initialScanState] using h2,
    ?_, ?_⟩
  · intro p hp
    simp only [scanDeletions, hbp, List.mem_append] at hp
    rcases hp with ((hp | hp) | hp) | hp
    · rcases h6 _ hp with hm | ⟨n, t, q, hm⟩
      · simp [initialScanState] at hm
      · exact absurd hm (by simp)
    · simp at hp
    · simp at hp
    · rcases deletionPass_events_shape env (scanFold env files cache).processedFiles
          _ _ _ hp with ⟨q, hq⟩ | ⟨q, hq⟩ | ⟨q, hq⟩ <;> simp at hq
  · intro ts hts
    simp only [scanDeletions, hbp, List.mem_append] at hts
    rcases hts with ((hts | hts) | hts) | hts
    · rcases h6 _ hts with hm | ⟨n, t, q, hm⟩
      · simp [initialScanState] at hm
      · exact absurd hm (by simp)
    · simp at hts
    · simp at hts
    · rcases deletionPass_events_shape env (scanFold env files cache).processedFiles
          _ _ _ hts with ⟨q, hq⟩ | ⟨q, hq⟩ | ⟨q, hq⟩ <;> simp at hq

/-- C4 witness: one unchanged file. -/
theorem claim_C4_witness :
    (scanDirectory trivialScanEnv [{ path := "a", size := 1, content := "x" }]
      [("a", "x")]).processed = 0 ∧
    (scanDirectory trivialScanEnv [{ path := "a", size := 1, content := "x" }]
      [("a", "x")]).skipped = 1 :=
  ⟨(claim_C4_unchanged_rescan_noop trivialScanEnv
      [{ path := "a", size := 1, content := "x" }] [("a", "x")] (by decide)).1,
    (claim_C4_unchanged_rescan_noop trivialScanEnv
      [{ path := "a", size := 1, content := "x" }] [("a", "x")] (by decide)).2.1⟩

/-! ## Deletion-reconciliation lemmas -/

/-- `deleteHash` removes every entry of its key. -/
theorem getHash_deleteHash_self (c : Cache) (p : String) :
    getHash (deleteHash c p) p = none := by
  unfold deleteHash
  induction c with
  | nil => rfl
  | cons kv rest ih =>
      by_cases hkp : (kv.1 == p) = true
      · have hk : kv.1 = p := by simpa using hkp
        rw [List.filter_cons_of_neg (by simp [hk])]
        exact ih
      · rw [List.filter_cons_of_pos (by simpa using hkp)]
        unfold getHash
        rw [List.find?_cons_of_neg _ (by simpa using hkp)]
        exact ih

/-- `deleteHash` of another key leaves a lookup unchanged. -/
theorem getHash_deleteHash_other (c : Cache) (p q : String) (hq : q ≠ p) :
    getHash (deleteHash c q) p = getHash c p := by
  unfold deleteHash
  induction c with
  | nil => rfl
  | cons kv rest ih =>
      by_cases hkq : (kv.1 == q) = true
      · have hk : kv.1 = q := by simpa using hkq
        rw [List.filter_cons_of_neg (by simp [hk])]
        have hkp : (kv.1 == p) = false := by simp [hk, hq]
        unfold getHash
        rw [List.find?_cons_of_neg _ (by simpa using hkp)]
        exact ih
      · rw [List.filter_cons_of_pos (by simpa using hkq)]
        unfold getHash
        by_cases hkp : (kv.1 == p) = true
        · rw [List.find?_cons_of_pos _ (by simpa using hkp),
            List.find?_cons_of_pos _ (by simpa using hkp)]
        · rw [List.find?_cons_of_neg _ (by simpa using hkp),
            List.find?_cons_of_neg _ (by simpa using hkp)]
          exact ih

/-- A lookup succeeds exactly when the key occurs in the cache. -/
theorem getHash_isSome_iff_mem (c : Cache) (p : String) :
    (getHash c p).isSome = true ↔ p ∈ c.map Prod.fst := by
  induction c with
  | nil => simp [getHash]
  | cons kv rest ih =>
      have hcons : getHash (kv :: rest) p =
          if kv.1 == p then some kv.2 else getHash rest p := by
        unfold getHash
        by_cases hkp : (kv.1 == p) = true
        · rw [List.find?_cons_of_pos _ (by simpa using hkp), if_pos hkp]
          rfl
        · rw [List.find?_cons_of_neg _ (by simpa using hkp), if_neg hkp]
      rw [hcons]
      by_cases hkp : (kv.1 == p) = true
      · have hk : kv.1 = p := by simpa using hkp
        simp [hkp, hk]
      · have hk : kv.1 ≠ p := by simpa using hkp
        rw [if_neg hkp]
        simp only [List.map_cons, List.mem_cons]
        rw [ih]
        constructor
        · exact Or.inr
        · intro hmm
          rcases hmm with hmm | hmm
          · exact absurd hmm.symm hk
          · exact hmm

/-- `updateHash` does not change the key list in its replace branch and
appends a fresh key otherwise; either way key distinctness is preserved. -/
theorem updateHash_keys_nodup (c : Cache) (p h : String)
    (hnd : (c.map Prod.fst).Nodup) : ((updateHash c p h).map Prod.fst).Nodup := by
  unfold updateHash
  split
  · have hkeys : (c.map (fun kv => if kv.1 == p then (p, h) else kv)).map Prod.fst =
        c.map Prod.fst := by
      rw [List.map_map]
      apply List.map_congr_left
      intro kv _
      simp only [Function.comp_apply]
      by_cases hkp : (kv.1 == p) = true
      · rw [if_pos hkp]
        have : kv.1 = p := by simpa using hkp
        simp [this]
      · rw [if_neg hkp]
    rw [hkeys]
    exact hnd
  · rename_i hany
    have hnp : p ∉ c.map Prod.fst := by
      intro hmem
      apply hany
      rcases List.mem_map.mp hmem with ⟨kv, hkv, hfst⟩
      exact List.any_eq_true.mpr ⟨kv, hkv, by simp [hfst]⟩
    rw [List.map_append]
    simp only [List.map_cons, List.map_nil]
    rw [List.nodup_append]
    refine ⟨hnd, List.nodup_singleton p, ?_⟩
    intro q hq hq2
    simp only [List.mem_singleton] at hq2
    exact hnp (hq2 ▸ hq)

/-- `updateHashes` preserves key distinctness. -/
theorem updateHashes_keys_nodup (infos : List FileInfo) (c : Cache)
    (hnd : (c.map Prod.fst).Nodup) : ((updateHashes c infos).map Prod.fst).Nodup := by
  induction infos generalizing c with
  | nil => exact hnd
  | cons i rest ih =>
      show ((updateHashes (updateHash c i.filePath i.fileHash) rest).map Prod.fst).Nodup
      exact ih _ (updateHash_keys_nodup c i.filePath i.fileHash hnd)

/-- `processBatch` preserves key distinctness. -/
theorem processBatch_keys_nodup (maxRetries d : Nat) (ae : Nat → AttemptEnv)
    (bb : List CodeBlock) (bt : List String) (infos : List FileInfo) (c : Cache)
    (hnd : (c.map Prod.fst).Nodup) :
    (((processBatch maxRetries d ae bb bt infos c).cache).map Prod.fst).Nodup := by
  rcases processBatch_cache_cases maxRetries d ae bb bt infos c with hc | hc
  · rw [hc]; exact hnd
  · rw [hc]; exact updateHashes_keys_nodup infos c hnd

/-- `runBatches` preserves key distinctness. -/
theorem runBatches_keys_nodup (env : ScanEnv) (allInfos : List FileInfo) :
    ∀ (bs : List (List CodeBlock)) (i0 : Nat) (c : Cache),
      (c.map Prod.fst).Nodup →
      (((runBatches env allInfos bs i0 c).2.1).map Prod.fst).Nodup := by
  intro bs
  induction bs with
  | nil => intro i0 c hnd; exact hnd
  | cons b rest ih =>
      intro i0 c hnd
      exact ih (i0 + 1) _ (processBatch_keys_nodup env.maxRetries env.initialDelay
        (env.batchEnv i0) b (batchTextsOf b) (batchInfosOf allInfos b) c hnd)

/-- `processFile` leaves the cache unchanged or performs one `updateHash` for
the file's own path. -/
theorem processFile_cache_cases (env : ScanEnv) (total : Nat) (s : ScanState)
    (f : FileEntry) :
    (processFile env total s f).cache = s.cache ∨
    (processFile env total s f).cache =
      updateHash s.cache f.path (env.hashFn f.content) := by
  unfold processFile
  dsimp only
  split
  · exact Or.inl rfl
  · split
    · exact Or.inl rfl
    · split
      · exact Or.inr rfl
      · exact Or.inl rfl

/-- The per-file fold preserves key distinctness. -/
theorem scanFoldStep_keys_nodup (env : ScanEnv) (total : Nat) :
    ∀ (files : List FileEntry) (s : ScanState),
      ((s.cache).map Prod.fst).Nodup →
      (((files.foldl (processFile env total) s).cache).map Prod.fst).Nodup := by
  intro files
  induction files with
  | nil => intro s hnd; exact hnd
  | cons f rest ih =>
      intro s hnd
      refine ih (processFile env total s f) ?_
      rcases processFile_cache_cases env total s f with hc | hc
      · rw [hc]; exact hnd
      · rw [hc]; exact updateHash_keys_nodup s.cache f.path (env.hashFn f.content) hnd

/-- Exactly the non-processed snapshot keys receive `deletePointsByFilePath`
calls, one call per snapshot entry. -/
theorem deletionPass_count (env : ScanEnv) (pf : List String) (p : String) :
    ∀ (snapshot : List (String × String)) (c : Cache),
      (deletionPass env pf snapshot c).2.count (ScanEvent.deletePointsCall p) =
        if p ∈ pf then 0 else (snapshot.map Prod.fst).count p := by
  intro snapshot
  induction snapshot with
  | nil =>
      intro c
      simp [deletionPass]
  | cons kv rest ih =>
      intro c
      rcases kv with ⟨q, hh⟩
      simp only [deletionPass]
      by_cases hq : pf.contains q
      · rw [if_pos hq, ih c]
        by_cases hp : p ∈ pf
        · rw [if_pos hp, if_pos hp]
        · have hqp : q ≠ p := by
            intro he
            subst he
            exact hp (by simpa using hq)
          rw [if_neg hp, if_neg hp]
          simp [List.count_cons, hqp]
      · rw [if_neg hq]
        have hq2 : q ∉ pf := by
          intro hmm
          exact hq (by simpa using hmm)
        have branch : ∀ (x : ScanEvent) (c2 : Cache),
            x ≠ ScanEvent.deletePointsCall p →
            (ScanEvent.deletePointsCall q :: x ::
              (deletionPass env pf rest c2).2).count (ScanEvent.deletePointsCall p) =
            if p ∈ pf then 0 else ((q, hh) :: rest).map Prod.fst |>.count p := by
          intro x c2 hxne
          by_cases hp : p ∈ pf
          · have hqp : q ≠ p := by
              intro he
              subst he
              exact hq2 hp
            rw [if_pos hp]
            simp [List.count_cons, hxne, hqp, ih c2, if_pos hp]
          · rw [if_neg hp]
            by_cases hqp : q = p <;>
              simp [List.count_cons, hxne, hqp, ih c2, if_neg hp]
        by_cases hdq : env.deletePointsOk q
        · rw [if_pos hdq]
          exact branch _ _ (by simp)
        · rw [if_neg hdq]
          exact branch _ _ (by simp)

/-- The deletion pass never touches the cache entry of a processed path. -/
theorem deletionPass_getHash_processed (env : ScanEnv) (pf : List String) (p : String)
    (hp : p ∈ pf) :
    ∀ (snapshot : List (String × String)) (c : Cache),
      getHash (deletionPass env pf snapshot c).1 p = getHash c p := by
  intro snapshot
  induction snapshot with
  | nil => intro c; rfl
  | cons kv rest ih =>
      intro c
      rcases kv with ⟨q, hh⟩
      simp only [deletionPass]
      by_cases hq : pf.contains q
      · rw [if_pos hq]; exact ih c
      · rw [if_neg hq]
        have hqp : q ≠ p := fun he => hq (by simp [he, hp])
        by_cases hdq : env.deletePointsOk q
        · rw [if_pos hdq]
          show getHash (deletionPass env pf rest (deleteHash c q)).1 p = _
          rw [ih _, getHash_deleteHash_other c p q hqp]
        · rw [if_neg hdq]
          exact ih c

/-- The deletion pass never resurrects an absent key. -/
theorem deletionPass_getHash_none (env : ScanEnv) (pf : List String) (p : String) :
    ∀ (snapshot : List (String × String)) (c : Cache),
      getHash c p = none → getHash (deletionPass env pf snapshot c).1 p = none := by
  intro snapshot
  induction snapshot with
  | nil => intro c hc; exact hc
  | cons kv rest ih =>
      intro c hc
      rcases kv with ⟨q, hh⟩
      simp only [deletionPass]
      by_cases hq : pf.contains q
      · rw [if_pos hq]; exact ih c hc
      · rw [if_neg hq]
        by_cases hdq : env.deletePointsOk q
        · rw [if_pos hdq]
          refine ih _ ?_
          by_cases hqp : q = p
          · rw [hqp, getHash_deleteHash_self]
          · rw [getHash_deleteHash_other c p q hqp]; exact hc
        · rw [if_neg hdq]
          exact ih c hc

/-- A non-processed snapshot key with a succeeding delete call loses its
cache entry. -/
theorem deletionPass_getHash_removed (env : ScanEnv) (pf : List String) (p : String)
    (hp : p ∉ pf) (hdel : env.deletePointsOk p = true) :
    ∀ (snapshot : List (String × String)) (c : Cache),
      p ∈ snapshot.map Prod.fst → getHash (deletionPass env pf snapshot c).1 p = none := by
  intro snapshot
  induction snapshot with
  | nil => intro c hmem; simp at hmem
  | cons kv rest ih =>
      intro c hmem
      rcases kv with ⟨q, hh⟩
      simp only [deletionPass]
      by_cases hqp : q = p
      · subst hqp
        rw [if_neg (by simpa using hp), if_pos hdel]
        refine deletionPass_getHash_none env pf q rest _ ?_
        exact getHash_deleteHash_self c q
      · have hmem2 : p ∈ rest.map Prod.fst := by
          simp only [List.map_cons] at hmem
          rcases List.mem_cons.mp hmem with hx | hx
          · exact absurd hx.symm hqp
          · exact hx
        by_cases hq : pf.contains q
        · rw [if_pos hq]; exact ih c hmem2
        · rw [if_neg hq]
          by_cases hdq : env.deletePointsOk q
          · rw [if_pos hdq]; exact ih _ hmem2
          · rw [if_neg hdq]; exact ih c hmem2

/-- One attempt emits no `deletePointsByFilePath` call (its deletion step is
the batched `deletePointsByMultipleFilePaths`). -/
theorem attemptEvents_no_deletePointsCall (bb : List CodeBlock) (bt : List String)
    (infos : List FileInfo) (a : AttemptEnv) (p : String) :
    ScanEvent.deletePointsCall p ∉ attemptEvents bb bt infos a := by
  unfold attemptEvents
  rcases a with ⟨d, e, u⟩
  by_cases hemp : (attemptDeletePaths infos).isEmpty = true <;>
    cases d <;> cases e <;> cases u <;> simp_all

/-- The retry loop emits no `deletePointsByFilePath` call. -/
theorem processBatchGo_no_deletePointsCall (d : Nat) (ae : Nat → AttemptEnv)
    (bb : List CodeBlock) (bt : List String) (infos : List FileInfo) (p : String) :
    ∀ (fuel made : Nat) (c : Cache) (evs : List ScanEvent),
      ScanEvent.deletePointsCall p ∈
        (processBatchGo d ae bb bt infos fuel made c evs).events →
      ScanEvent.deletePointsCall p ∈ evs := by
  intro fuel
  induction fuel with
  | zero =>
      intro made c evs hm
      simp only [processBatchGo] at hm
      rcases List.mem_append.mp hm with h1 | h2
      · exact h1
      · split at h2 <;> simp_all
  | succ fuel ih =>
      intro made c evs hm
      simp only [processBatchGo] at hm
      split at hm
      · rcases List.mem_append.mp hm with h1 | h2
        · exact h1
        · exact absurd h2 (attemptEvents_no_deletePointsCall bb bt infos _ p)
      · have hrec := ih (made + 1) c _ hm
        by_cases hf : fuel = 0
        · rw [if_pos hf] at hrec
          rcases List.mem_append.mp hrec with h1 | h2
          · exact h1
          · exact absurd h2 (attemptEvents_no_deletePointsCall bb bt infos _ p)
        · rw [if_neg hf] at hrec
          rcases List.mem_append.mp hrec with h1 | h2
          · rcases List.mem_append.mp h1 with h3 | h4
            · exact h3
            · exact absurd h4 (attemptEvents_no_deletePointsCall bb bt infos _ p)
          · simp at h2

/-- The batch phase emits no `deletePointsByFilePath` call. -/
theorem runBatches_no_deletePointsCall (env : ScanEnv) (allInfos : List FileInfo)
    (p : String) :
    ∀ (bs : List (List CodeBlock)) (i0 : Nat) (c : Cache),
      ScanEvent.deletePointsCall p ∉ (runBatches env allInfos bs i0 c).2.2 := by
  intro bs
  induction bs with
  | nil => intro i0 c hm; simp [runBatches] at hm
  | cons b rest ih =>
      intro i0 c hm
      have hm2 : ScanEvent.deletePointsCall p ∈
          (processBatch env.maxRetries env.initialDelay (env.batchEnv i0) b
            (batchTextsOf b) (batchInfosOf allInfos b) c).events ++
          (runBatches env allInfos rest (i0 + 1)
            (processBatch env.maxRetries env.initialDelay (env.batchEnv i0) b
              (batchTextsOf b) (batchInfosOf allInfos b) c).cache).2.2 := hm
      rcases List.mem_append.mp hm2 with h1 | h2
      · unfold processBatch at h1
        split at h1
        · simp at h1
        · have := processBatchGo_no_deletePointsCall env.initialDelay (env.batchEnv i0) b
            (batchTextsOf b) (batchInfosOf allInfos b) p env.maxRetries 0 c [] h1
          simp at this
      · exact ih (i0 + 1) _ h2

/-- Every event of one `processFile` step is an old event, a file-progress
report, a parse call, or a cache update. -/
theorem processFile_events_shape (env : ScanEnv) (total : Nat) (s : ScanState)
    (f : FileEntry) :
    ∀ e ∈ (processFile env total s f).events,
      e ∈ s.events ∨ (∃ n t q, e = ScanEvent.fileProgress n t q) ∨
      (∃ q, e = ScanEvent.parseCall q) ∨
      (∃ q hsh, e = ScanEvent.cacheUpdate q hsh) := by
  unfold processFile
  dsimp only
  intro e
  split
  · intro he
    rcases List.mem_append.mp he with h1 | h2
    · exact Or.inl h1
    · simp only [List.mem_singleton] at h2
      exact Or.inr (Or.inl ⟨_, _, _, h2⟩)
  · split
    · intro he
      rcases List.mem_append.mp he with h1 | h2
      · exact Or.inl h1
      · simp only [List.mem_singleton] at h2
        exact Or.inr (Or.inl ⟨_, _, _, h2⟩)
    · split
      · intro he
        rcases List.mem_append.mp he with h1 | h2
        · rcases List.mem_append.mp h1 with h3 | h4
          · rcases List.mem_append.mp h3 with h5 | h6
            · exact Or.inl h5
            · simp only [List.mem_singleton] at h6
              exact Or.inr (Or.inl ⟨_, _, _, h6⟩)
          · simp only [List.mem_singleton] at h4
            exact Or.inr (Or.inr (Or.inl ⟨_, h4⟩))
        · simp only [List.mem_singleton] at h2
          exact Or.inr (Or.inr (Or.inr ⟨_, _, h2⟩))
      · intro he
        rcases List.mem_append.mp he with h1 | h2
        · rcases List.mem_append.mp h1 with h3 | h4
          · exact Or.inl h3
          · simp only [List.mem_singleton] at h4
            exact Or.inr (Or.inl ⟨_, _, _, h4⟩)
        · simp only [List.mem_singleton] at h2
          exact Or.inr (Or.inr (Or.inl ⟨_, h2⟩))

/-- Event shape of the whole per-file fold. -/
theorem scanFoldStep_events_shape (env : ScanEnv) (total : Nat) :
    ∀ (files : List FileEntry) (s : ScanState),
      ∀ e ∈ (files.foldl (processFile env total) s).events,
        e ∈ s.events ∨ (∃ n t q, e = ScanEvent.fileProgress n t q) ∨
        (∃ q, e = ScanEvent.parseCall q) ∨
        (∃ q hsh, e = ScanEvent.cacheUpdate q hsh) := by
  intro files
  induction files with
  | nil => intro s e he; exact Or.inl he
  | cons f rest ih =>
      intro s e he
      rcases ih (processFile env total s f) e he with h1 | h2
      · exact processFile_events_shape env total s f e h1
      · exact Or.inr h2

/-- A scanner environment with a small file-size limit, for the C5
counterexample. -/
def c5Env : ScanEnv :=
  { maxFileSize := 5
    batchThreshold := 200
    maxRetries := 3
    initialDelay := 500
    hashFn := fun s => s
    parseFn := fun _ _ => []
    batchEnv := fun _ _ => { deleteOk := true, embedOk := true, upsertOk := true }
    deletePointsOk := fun _ => true }

/-- C5 counterexample: the cached path "big" IS present in the current file
listing (it is the single supported path), yet — because it exceeds the file
size limit and is therefore never added to `processedFiles` — the deletion
reconciliation issues a `deletePointsByFilePath("big")` call and removes its
cache entry.  This refutes the claim that a cached path still present in the
listing is never treated as removed. -/
theorem claim_C5_counterexample :
    (([{ path := "big", size := 10, content := "zz" }] : List FileEntry).map
      (fun f => f.path)).contains "big" = true ∧
    (scanDirectory c5Env [{ path := "big", size := 10, content := "zz" }]
      [("big", "h")]).events.count (ScanEvent.deletePointsCall "big") = 1 ∧
    getHash (scanDirectory c5Env [{ path := "big", size := 10, content := "zz" }]
      [("big", "h")]).cache "big" = none := by decide

/-- C5 (amended): at the end of the deletion-reconciliation pass, a path
receives exactly one `deletePointsByFilePath` call and loses its cache entry
if and only if it is present in the cache snapshot taken after the batches
and absent from `processedFiles` — the set of files actually read this scan
(a cached path that was filtered out, oversized, or unreadable counts as
removed even though it is still listed); a path in `processedFiles` receives
no call and keeps its entry. -/
theorem claim_C5_deletion_reconciliation (env : ScanEnv) (files : List FileEntry)
    (cache : Cache) (hnd : (cache.map Prod.fst).Nodup)
    (hdel : ∀ q, env.deletePointsOk q = true) (p : String) :
    (((getHash (scanDirectory env files cache).cacheAfterBatches p).isSome = true ∧
        p ∉ (scanDirectory env files cache).processedFiles) →
      (scanDirectory env files cache).events.count (ScanEvent.deletePointsCall p) = 1 ∧
      getHash (scanDirectory env files cache).cache p = none) ∧
    (p ∈ (scanDirectory env files cache).processedFiles →
      (scanDirectory env files cache).events.count (ScanEvent.deletePointsCall p) = 0 ∧
      getHash (scanDirectory env files cache).cache p =
        getHash (scanDirectory env files cache).cacheAfterBatches p) ∧
    ((getHash (scanDirectory env files cache).cacheAfterBatches p).isSome = false →
      (scanDirectory env files cache).events.count (ScanEvent.deletePointsCall p) = 0) := by
  have hndAfter : (((scanBatchPhase env files cache).2.1).map Prod.fst).Nodup := by
    unfold scanBatchPhase
    refine runBatches_keys_nodup env _ _ 0 _ ?_
    unfold scanFold
    exact scanFoldStep_keys_nodup env files.length files (initialScanState cache) hnd
  have hcount : (scanDirectory env files cache).events.count
      (ScanEvent.deletePointsCall p) =
      (scanDeletions env files cache).2.count (ScanEvent.deletePointsCall p) := by
    simp only [scanDirectory]
    rw [List.count_append, List.count_append, List.count_append]
    have c1 : (scanFold env files cache).events.count (ScanEvent.deletePointsCall p) =
        0 := by
      refine List.count_eq_zero_of_not_mem ?_
      intro hm
      rcases scanFoldStep_events_shape env files.length files (initialScanState cache)
          _ hm with h0 | ⟨n, t, q, hq⟩ | ⟨q, hq⟩ | ⟨q, hsh, hq⟩
      · simp [initialScanState] at h0
      · exact absurd hq (by simp)
      · exact absurd hq (by simp)
      · exact absurd hq (by simp)
    have c3 : ((scanBatchPhase env files cache).2.2).count
        (ScanEvent.deletePointsCall p) = 0 := by
      refine List.count_eq_zero_of_not_mem ?_
      unfold scanBatchPhase
      exact runBatches_no_deletePointsCall env _ p _ 0 _
    rw [c1, c3]
    simp
  have hdelcount := deletionPass_count env (scanFold env files cache).processedFiles p
    (scanBatchPhase env files cache).2.1 (scanBatchPhase env files cache).2.1
  refine ⟨?_, ?_, ?_⟩
  · rintro ⟨hsome, hnp⟩
    have hnp2 : p ∉ (scanFold env files cache).processedFiles := hnp
    have hmem : p ∈ ((scanBatchPhase env files cache).2.1).map Prod.fst :=
      (getHash_isSome_iff_mem _ p).mp hsome
    constructor
    · rw [hcount]
      show (scanDeletions env files cache).2.count (ScanEvent.deletePointsCall p) = 1
      unfold scanDeletions
      rw [hdelcount, if_neg hnp2]
      exact List.count_eq_one_of_mem hndAfter hmem
    · show getHash (scanDeletions env files cache).1 p = none
      unfold scanDeletions
      exact deletionPass_getHash_removed env _ p hnp2 (hdel p) _ _ hmem
  · intro hp
    have hp2 : p ∈ (scanFold env files cache).processedFiles := hp
    constructor
    · rw [hcount]
      show (scanDeletions env files cache).2.count (ScanEvent.deletePointsCall p) = 0
      unfold scanDeletions
      rw [hdelcount, if_pos hp2]
    · show getHash (scanDeletions env files cache).1 p =
        getHash (scanBatchPhase env files cache).2.1 p
      unfold scanDeletions
      exact deletionPass_getHash_processed env _ p hp2 _ _
  · intro hnone
    have hnmem : p ∉ ((scanBatchPhase env files cache).2.1).map Prod.fst := by
      intro hm
      have h2 : (getHash (scanBatchPhase env files cache).2.1 p).isSome = true :=
        (getHash_isSome_iff_mem _ p).mpr hm
      have h3 : (getHash (scanBatchPhase env files cache).2.1 p).isSome = false := hnone
      rw [h2] at h3
      simp at h3
    rw [hcount]
    show (scanDeletions env files cache).2.count (ScanEvent.deletePointsCall p) = 0
    unfold scanDeletions
    rw [hdelcount]
    split
    · rfl
    · exact List.count_eq_zero_of_not_mem hnmem

/-- C5 witness: a cached path absent from the listing is reconciled — one
delete call, cache entry gone — and a processed path is untouched. -/
theorem claim_C5_witness :
    ((scanDirectory trivialScanEnv [] [("gone", "h")]).events.count
        (ScanEvent.deletePointsCall "gone") = 1 ∧
      getHash (scanDirectory trivialScanEnv [] [("gone", "h")]).cache "gone" = none) :=
  (claim_C5_deletion_reconciliation trivialScanEnv [] [("gone", "h")]
    (by decide) (fun _ => rfl) "gone").1 (by decide)

/-! ## Batch-partition lemmas -/

/-- `chunksGo` ignores its fuel as long as there is enough of it. -/
theorem chunksGo_fuel_irrelevant {α : Type} (T : Nat) (hT : T ≠ 0) :
    ∀ (f1 : Nat) (l : List α) (f2 : Nat), l.length ≤ f1 → l.length ≤ f2 →
      chunksGo T f1 l = chunksGo T f2 l := by
  intro f1
  induction f1 with
  | zero =>
      intro l f2 h1 h2
      have hl : l = [] := List.eq_nil_of_length_eq_zero (by omega)
      subst hl
      cases f2 <;> rfl
  | succ f1 ih =>
      intro l f2 h1 h2
      cases l with
      | nil => cases f2 <;> rfl
      | cons x xs =>
          cases f2 with
          | zero => simp at h2
          | succ f2 =>
              simp only [chunksGo]
              congr 1
              refine ih ((x :: xs).drop T) f2 ?_ ?_
              · rw [List.length_drop]
                simp only [List.length_cons] at h1 ⊢
                omega
              · rw [List.length_drop]
                simp only [List.length_cons] at h2 ⊢
                omega

/-- The unfolding equation of `chunks` on a nonempty list. -/
theorem chunks_cons_eq {α : Type} (T : Nat) (hT : T ≠ 0) (x : α) (xs : List α) :
    chunks T (x :: xs) = (x :: xs).take T :: chunks T ((x :: xs).drop T) := by
  unfold chunks
  rw [if_neg hT, if_neg hT]
  show chunksGo T (xs.length + 1) (x :: xs) = _
  simp only [chunksGo]
  congr 1
  refine chunksGo_fuel_irrelevant T hT xs.length ((x :: xs).drop T)
    ((x :: xs).drop T).length ?_ (Nat.le_refl _)
  rw [List.length_drop]
  simp only [List.length_cons]
  omega

/-- Batch `j` is the slice `[j*T, j*T + T)` of the accumulated list. -/
theorem chunks_getElem?_some {α : Type} (T : Nat) (hT : T ≠ 0) :
    ∀ (j : Nat) (l : List α), j * T < l.length →
      (chunks T l)[j]? = some ((l.drop (j * T)).take T) := by
  intro j
  induction j with
  | zero =>
      intro l hlen
      cases l with
      | nil => simp at hlen
      | cons x xs =>
          rw [chunks_cons_eq T hT]
          simp
  | succ j ih =>
      intro l hlen
      cases l with
      | nil => simp at hlen
      | cons x xs =>
          rw [chunks_cons_eq T hT]
          have hm : (j + 1) * T = j * T + T := Nat.succ_mul j T
          rw [hm] at hlen
          have hlen2 : j * T < ((x :: xs).drop T).length := by
            rw [List.length_drop]
            omega
          have hrec := ih ((x :: xs).drop T) hlen2
          have hstep : ((x :: xs).take T :: chunks T ((x :: xs).drop T))[j + 1]? =
              (chunks T ((x :: xs).drop T))[j]? := by simp
          rw [hstep, hrec, List.drop_drop, show T + j * T = (j + 1) * T by omega]

/-- A defined batch index stays within the accumulated list. -/
theorem chunks_getElem?_bound {α : Type} (T : Nat) (hT : T ≠ 0) :
    ∀ (j : Nat) (l : List α) (b : List α),
      (chunks T l)[j]? = some b → j * T < l.length := by
  intro j
  induction j with
  | zero =>
      intro l b hj
      cases l with
      | nil => simp [chunks, hT, chunksGo] at hj
      | cons x xs => simp
  | succ j ih =>
      intro l b hj
      cases l with
      | nil => simp [chunks, hT, chunksGo] at hj
      | cons x xs =>
          rw [chunks_cons_eq T hT] at hj
          have hj2 : (chunks T ((x :: xs).drop T))[j]? = some b := by simpa using hj
          have hred := ih _ b hj2
          rw [List.length_drop] at hred
          have hm : (j + 1) * T = j * T + T := Nat.succ_mul j T
          rw [hm]
          omega

/-- Index convexity of a block list: between two positions holding path `p`,
every position holds path `p`. -/
def PathConvex (l : List CodeBlock) : Prop :=
  ∀ (p : String) (x y z : Nat) (b1 b2 b3 : CodeBlock),
    x ≤ y → y ≤ z → l[x]? = some b1 → l[y]? = some b2 → l[z]? = some b3 →
    b1.file_path = p → b3.file_path = p → b2.file_path = p

/-- Appending a uniform-path group with a fresh path preserves convexity. -/
theorem pathConvex_append (l g : List CodeBlock) (q : String)
    (hconv : PathConvex l) (hg : ∀ b ∈ g, b.file_path = q)
    (hfresh : ∀ b ∈ l, b.file_path ≠ q) : PathConvex (l ++ g) := by
  intro p x y z b1 b2 b3 hxy hyz hx hy hz h1 h3
  by_cases hzl : z < l.length
  · have hxl : x < l.length := by omega
    have hyl : y < l.length := by omega
    rw [List.getElem?_append_left hxl] at hx
    rw [List.getElem?_append_left hyl] at hy
    rw [List.getElem?_append_left hzl] at hz
    exact hconv p x y z b1 b2 b3 hxy hyz hx hy hz h1 h3
  · have hzl2 : l.length ≤ z := by omega
    rw [List.getElem?_append_right hzl2] at hz
    have hb3g : b3 ∈ g := List.mem_iff_getElem?.mpr ⟨_, hz⟩
    have hpq : p = q := h3 ▸ hg b3 hb3g
    by_cases hxl : x < l.length
    · rw [List.getElem?_append_left hxl] at hx
      have hb1l : b1 ∈ l := List.mem_iff_getElem?.mpr ⟨_, hx⟩
      exact absurd (h1.trans hpq) (hfresh b1 hb1l)
    · have hyl : l.length ≤ y := by omega
      rw [List.getElem?_append_right hyl] at hy
      have hb2g : b2 ∈ g := List.mem_iff_getElem?.mpr ⟨_, hy⟩
      rw [hg b2 hb2g]
      exact hpq.symm

/-- `processFile` appends either nothing or the file's whole parse result to
the accumulated blocks. -/
theorem processFile_blocks_cases (env : ScanEnv) (total : Nat) (s : ScanState)
    (f : FileEntry) :
    (processFile env total s f).blocks = s.blocks ∨
    (processFile env total s f).blocks = s.blocks ++ env.parseFn f.path f.content := by
  unfold processFile
  dsimp only
  split
  · exact Or.inl rfl
  · split
    · exact Or.inl rfl
    · split
      · exact Or.inl rfl
      · exact Or.inr rfl

/-- Indexed convexity of the accumulated blocks over the whole fold: with
distinct file paths and a parser that labels blocks with their file's path,
each file's blocks form one contiguous run. -/
theorem scanFold_blocks_convex (env : ScanEnv) (total : Nat) :
    ∀ (files : List FileEntry) (s : ScanState),
      (files.map (fun f => f.path)).Nodup →
      (∀ f ∈ files, ∀ b ∈ env.parseFn f.path f.content, b.file_path = f.path) →
      PathConvex s.blocks →
      (∀ b ∈ s.blocks, b.file_path ∉ files.map (fun f => f.path)) →
      PathConvex ((files.foldl (processFile env total) s).blocks) := by
  intro files
  induction files with
  | nil =>
      intro s _ _ hconv _
      exact hconv
  | cons f rest ih =>
      intro s hnd hparse hconv hfresh
      simp only [List.map_cons, List.nodup_cons] at hnd
      simp only [List.foldl_cons]
      refine ih (processFile env total s f) hnd.2
        (fun g hg => hparse g (by simp [hg])) ?_ ?_
      · rcases processFile_blocks_cases env total s f with hb | hb
        · rw [hb]; exact hconv
        · rw [hb]
          refine pathConvex_append s.blocks _ f.path hconv (hparse f (by simp)) ?_
          intro b hb2 hbp
          refine hfresh b hb2 ?_
          simp only [List.map_cons, List.mem_cons]
          exact Or.inl hbp
      · intro b hb2 hmem
        rcases processFile_blocks_cases env total s f with hb | hb
        · rw [hb] at hb2
          refine hfresh b hb2 ?_
          simp only [List.map_cons, List.mem_cons]
          exact Or.inr hmem
        · rw [hb] at hb2
          rcases List.mem_append.mp hb2 with h1 | h2
          · refine hfresh b h1 ?_
            simp only [List.map_cons, List.mem_cons]
            exact Or.inr hmem
          · rw [hparse f (by simp) b h2] at hmem
            exact hnd.1 hmem

/-- The C3 scenario: file "a" parses to 150 blocks and file "b" to 100, with
a batch threshold of 200. -/
def c3Env : ScanEnv :=
  { maxFileSize := 1000
    batchThreshold := 200
    maxRetries := 3
    initialDelay := 500
    hashFn := fun s => "h" ++ s
    parseFn := fun p _ => (List.range (if p = "a" then 150 else 100)).map (fun i =>
      { file_path := p, content := "x", start_line := i + 1, end_line := i + 1
        segmentHash := p ++ ":" ++ Nat.repr i })
    batchEnv := fun _ _ => { deleteOk := true, embedOk := true, upsertOk := true }
    deletePointsOk := fun _ => true }

/-- The two files of the C3 scenario. -/
def c3Files : List FileEntry :=
  [{ path := "a", size := 1, content := "aa" }, { path := "b", size := 1, content := "bb" }]

section
set_option maxRecDepth 4000

/-- C3 counterexample: file "b" accumulates 100 blocks at positions 150-249;
with a threshold of 200 they straddle the first batch boundary, so blocks of
"b" land in BOTH batch 0 and batch 1 — refuting "no file's blocks are split
across two or more batches". -/
theorem claim_C3_counterexample :
    ((scanDirectory c3Env c3Files []).batches.map
      (fun batch => batch.any (fun blk => blk.file_path == "b"))) = [true, true] := by
  decide

end

/-- C3 (amended): a file's blocks occupy one contiguous run of the
accumulation order, and batches are consecutive threshold-sized slices of
that order, so the batches containing a given file's blocks form a
consecutive range — but a file whose run straddles a batch boundary is split
across more than one batch. -/
theorem claim_C3_blocks_in_consecutive_batches (env : ScanEnv) (files : List FileEntry)
    (cache : Cache) (hT : env.batchThreshold ≠ 0)
    (hnd : (files.map (fun f => f.path)).Nodup)
    (hparse : ∀ f ∈ files, ∀ b ∈ env.parseFn f.path f.content, b.file_path = f.path)
    (p : String) (i j k : Nat) (bi bj bk : List CodeBlock)
    (hij : i ≤ j) (hjk : j ≤ k)
    (hbi : (scanDirectory env files cache).batches[i]? = some bi)
    (hbj : (scanDirectory env files cache).batches[j]? = some bj)
    (hbk : (scanDirectory env files cache).batches[k]? = some bk)
    (hpi : ∃ b ∈ bi, b.file_path = p) (hpk : ∃ b ∈ bk, b.file_path = p) :
    ∃ b ∈ bj, b.file_path = p := by
  rcases Nat.eq_or_lt_of_le hij with heq | hlt1
  · subst heq
    rw [hbi] at hbj
    exact (Option.some.inj hbj) ▸ hpi
  rcases Nat.eq_or_lt_of_le hjk with heq | hlt2
  · subst heq
    rw [hbj] at hbk
    exact (Option.some.inj hbk).symm ▸ hpk
  have hbatches : (scanDirectory env files cache).batches =
      chunks env.batchThreshold (scanFold env files cache).blocks := rfl
  rw [hbatches] at hbi hbj hbk
  have hconv : PathConvex (scanFold env files cache).blocks := by
    refine scanFold_blocks_convex env files.length files (initialScanState cache)
      hnd hparse ?_ ?_
    · intro p' x y z b1 b2 b3 _ _ hx _ _ _ _
      simp [initialScanState] at hx
    · intro b hb
      simp [initialScanState] at hb
  have hibound := chunks_getElem?_bound env.batchThreshold hT i _ bi hbi
  have hjbound := chunks_getElem?_bound env.batchThreshold hT j _ bj hbj
  have hkbound := chunks_getElem?_bound env.batchThreshold hT k _ bk hbk
  have hbieq : bi = (((scanFold env files cache).blocks).drop
      (i * env.batchThreshold)).take env.batchThreshold := by
    have h2 := chunks_getElem?_some env.batchThreshold hT i
      (scanFold env files cache).blocks hibound
    rw [h2] at hbi
    exact (Option.some.inj hbi).symm
  have hbjeq : bj = (((scanFold env files cache).blocks).drop
      (j * env.batchThreshold)).take env.batchThreshold := by
    have h2 := chunks_getElem?_some env.batchThreshold hT j
      (scanFold env files cache).blocks hjbound
    rw [h2] at hbj
    exact (Option.some.inj hbj).symm
  have hbkeq : bk = (((scanFold env files cache).blocks).drop
      (k * env.batchThreshold)).take env.batchThreshold := by
    have h2 := chunks_getElem?_some env.batchThreshold hT k
      (scanFold env files cache).blocks hkbound
    rw [h2] at hbk
    exact (Option.some.inj hbk).symm
  obtain ⟨b1, hb1mem, hb1p⟩ := hpi
  obtain ⟨b3, hb3mem, hb3p⟩ := hpk
  obtain ⟨n1, hn1⟩ := List.mem_iff_getElem?.mp hb1mem
  obtain ⟨n3, hn3⟩ := List.mem_iff_getElem?.mp hb3mem
  rw [hbieq] at hn1
  rw [hbkeq] at hn3
  have hn1T : n1 < env.batchThreshold := by
    rcases List.getElem?_eq_some.mp hn1 with ⟨hlen, _⟩
    have := List.length_take env.batchThreshold
      (((scanFold env files cache).blocks).drop (i * env.batchThreshold))
    omega
  have hn3T : n3 < env.batchThreshold := by
    rcases List.getElem?_eq_some.mp hn3 with ⟨hlen, _⟩
    have := List.length_take env.batchThreshold
      (((scanFold env files cache).blocks).drop (k * env.batchThreshold))
    omega
  rw [List.getElem?_take_of_lt hn1T, List.getElem?_drop] at hn1
  rw [List.getElem?_take_of_lt hn3T, List.getElem?_drop] at hn3
  have hzlen : k * env.batchThreshold + n3 < (scanFold env files cache).blocks.length := by
    rcases List.getElem?_eq_some.mp hn3 with ⟨hlen, _⟩
    exact hlen
  have hylt : j * env.batchThreshold < (scanFold env files cache).blocks.length := by
    have hm : (j + 1) * env.batchThreshold = j * env.batchThreshold + env.batchThreshold :=
      Nat.succ_mul j env.batchThreshold
    have hjk2 : (j + 1) * env.batchThreshold ≤ k * env.batchThreshold :=
      Nat.mul_le_mul_right env.batchThreshold hlt2
    omega
  obtain ⟨b2, hb2⟩ : ∃ b2, ((scanFold env files cache).blocks)[j * env.batchThreshold]? =
      some b2 := ⟨_, List.getElem?_eq_getElem hylt⟩
  have hxy : i * env.batchThreshold + n1 ≤ j * env.batchThreshold := by
    have hm : (i + 1) * env.batchThreshold = i * env.batchThreshold + env.batchThreshold :=
      Nat.succ_mul i env.batchThreshold
    have hij2 : (i + 1) * env.batchThreshold ≤ j * env.batchThreshold :=
      Nat.mul_le_mul_right env.batchThreshold hlt1
    omega
  have hyz : j * env.batchThreshold ≤ k * env.batchThreshold + n3 := by
    have hjk2 : j * env.batchThreshold ≤ k * env.batchThreshold :=
      Nat.mul_le_mul_right env.batchThreshold (Nat.le_of_lt hlt2)
    omega
  have hb2p : b2.file_path = p :=
    hconv p (i * env.batchThreshold + n1) (j * env.batchThreshold)
      (k * env.batchThreshold + n3) b1 b2 b3 hxy hyz hn1 hb2 hn3 hb1p hb3p
  refine ⟨b2, ?_, hb2p⟩
  rw [hbjeq]
  refine List.mem_iff_getElem?.mpr ⟨0, ?_⟩
  rw [List.getElem?_take_of_lt (Nat.pos_of_ne_zero hT), List.getElem?_drop, Nat.add_zero]
  exact hb2

/-- A one-block-per-file scenario with threshold 1 for the C3 witness. -/
def c3WitnessEnv : ScanEnv :=
  { maxFileSize := 1000
    batchThreshold := 1
    maxRetries := 3
    initialDelay := 500
    hashFn := fun s => s
    parseFn := fun p _ => [{ file_path := p, content := "x", start_line := 1, end_line := 1
                             segmentHash := p }]
    batchEnv := fun _ _ => { deleteOk := true, embedOk := true, upsertOk := true }
    deletePointsOk := fun _ => true }

/-- C3 witness: the consecutive-batches theorem applied at a concrete scan. -/
theorem claim_C3_witness :
    ∃ b ∈ [({ file_path := "a", content := "x", start_line := 1, end_line := 1
              segmentHash := "a" } : CodeBlock)], b.file_path = "a" :=
  claim_C3_blocks_in_consecutive_batches c3WitnessEnv
    [{ path := "a", size := 1, content := "y" }] [] (by decide) (by decide) (by decide)
    "a" 0 0 0
    [{ file_path := "a", content := "x", start_line := 1, end_line := 1, segmentHash := "a" }]
    [{ file_path := "a", content := "x", start_line := 1, end_line := 1, segmentHash := "a" }]
    [{ file_path := "a", content := "x", start_line := 1, end_line := 1, segmentHash := "a" }]
    (by decide) (by decide) (by decide) (by decide) (by decide)
    ⟨{ file_path := "a", content := "x", start_line := 1, end_line := 1, segmentHash := "a" },
      by decide, by decide⟩
    ⟨{ file_path := "a", content := "x", start_line := 1, end_line := 1, segmentHash := "a" },
      by decide, by decide⟩

/-- C6 witness: a one-block batch failing all three attempts makes exactly
three attempts, reports one error, indexes nothing, and sleeps 500 ms then
1000 ms. -/
theorem claim_C6_witness :
    (processBatch 3 500 (fun _ => { deleteOk := true, embedOk := false, upsertOk := false })
      [c2Block] ["x"] [c2Info] []).attemptsMade = 3 ∧
    (processBatch 3 500 (fun _ => { deleteOk := true, embedOk := false, upsertOk := false })
      [c2Block] ["x"] [c2Info] []).indexed = 0 ∧
    (processBatch 3 500 (fun _ => { deleteOk := true, embedOk := false, upsertOk := false })
      [c2Block] ["x"] [c2Info] []).events.count ScanEvent.batchError = 1 ∧
    (processBatch 3 500 (fun _ => { deleteOk := true, embedOk := false, upsertOk := false })
      [c2Block] ["x"] [c2Info] []).events.filter isSleep =
      (List.range (3 - 1)).map (fun k => ScanEvent.sleep (500 * 2 ^ k)) :=
  (claim_C6_batch_retry_and_isolation 3 500
    (fun _ => { deleteOk := true, embedOk := false, upsertOk := false })
    [c2Block] ["x"] [c2Info] [] (by decide) (by decide)).2.1 (fun _ => by decide)

end CodeIndex
